import Mathlib

/-!
Julia dispatch adapter (`oif_impl/lang_julia/dispatch_julia.c`).

A shallow embedding of `load_impl`, `call_impl` and `handle_exception_`,
followed by theorems about descriptor parsing, argument marshaling, callable
resolution, invocation and exception bridging.

Conventions of the embedding:

* a C string is the list of its characters before the terminating NUL;
* a fixed-size `char` buffer is a list of exactly that many characters, and a
  store outside of it is undefined behaviour;
* `size_t` arithmetic is arithmetic on `Nat` modulo `2 ^ 64`; the sum of the two
  argument counts is computed in `int32_t`, where overflow is undefined behaviour;
* an argument array is the list of its allocated elements, and reading past it is
  undefined behaviour; every address that such an element holds is readable;
* `assert` is enabled (no `NDEBUG`);
* the embedded runtime is a parameter: its functions act on an explicit state that
  holds the memory and the pending exception.  The evaluation of the literal
  `(2,)` and `jl_apply_array_type` inside the marshaling loops are taken to
  produce the dimensions `[2]` and the type of a vector of `Float64` without
  changing that state;
* an execution is recorded as the list of its observable steps, in program order.
-/

namespace DispatchJulia

/-! ## Descriptor parsing in `load_impl` (source lines 45-65) -/

/-- The NUL character that terminates C strings. -/
def NUL : Char := Char.ofNat 0

/-- The separator of the two tokens of a descriptor. -/
def SPACE : Char := Char.ofNat 32

/-- Capacity of `module_filename` and of `module_name`: `char x[512]`. -/
def BUF_SIZE : Nat := 512

/-- The initial content of `char x[512] = "\0"`: every element is NUL. -/
def zero_buffer : List Char := List.replicate BUF_SIZE NUL

/-- The store `buf[i] = c` into a fixed-size buffer; `none` when `i` is out of bounds. -/
def store (buf : List Char) (i : Nat) (c : Char) : Option (List Char) :=
  if i < buf.length then some (buf.set i c) else none

/-- The C string held by a buffer: its characters up to the first NUL. -/
def cstr (buf : List Char) : List Char := buf.takeWhile (fun c => c != NUL)

/-- The function `strlen` on the content of a C string. -/
def strlen (s : List Char) : Nat := s.length

/-- The first loop of `load_impl`, lines 48-56, entered at index `i` with
`remaining = strlen(impl_details) - i` iterations left before the loop condition
`i < strlen(impl_details)` fails.  Returns the final `i` and `module_filename`. -/
def filename_loop (impl_details : List Char) :
    Nat → Nat → List Char → Option (Nat × List Char)
  | 0, i, module_filename => some (i, module_filename)
  | remaining + 1, i, module_filename =>
    if impl_details.getD i NUL != SPACE && impl_details.getD i NUL != NUL then
      (store module_filename i (impl_details.getD i NUL)).bind
        (fun buf => filename_loop impl_details remaining (i + 1) buf)
    else
      (store module_filename i NUL).map (fun buf => (i, buf))

/-- The second loop of `load_impl`, lines 58-65, entered at index `i` with
`remaining = strlen(impl_details) - i` iterations left.  The index `i - offset`
is computed in `size_t`.  Returns the final `module_name`. -/
def name_loop (impl_details : List Char) (offset : Nat) :
    Nat → Nat → List Char → Option (List Char)
  | 0, _, module_name => some module_name
  | remaining + 1, i, module_name =>
    if impl_details.getD i NUL != SPACE && impl_details.getD i NUL != NUL then
      (store module_name ((i + 2 ^ 64 - offset) % 2 ^ 64) (impl_details.getD i NUL)).bind
        (fun buf => name_loop impl_details offset remaining (i + 1) buf)
    else
      (store module_name i NUL).bind
        (fun buf => name_loop impl_details offset remaining (i + 1) buf)

/-- Lines 45-65 of `load_impl`: the buffers `module_filename` and `module_name`
after both parsing loops, or `none` when a store leaves its buffer. -/
def parse_descriptor (impl_details : List Char) : Option (List Char × List Char) :=
  (filename_loop impl_details (strlen impl_details) 0 zero_buffer).bind
    (fun r =>
      (name_loop impl_details (r.1 + 1) (strlen impl_details - r.1) r.1 zero_buffer).map
        (fun module_name => (r.2, module_name)))

/-! ## The dispatch ABI and the embedded runtime

The headers `oif/api.h`, `oif/dispatch_api.h` and `julia.h` are not part of the
source tree.  Their constants and the behaviour of the embedded runtime are
parameters of the embedding, collected in `Env`. -/

/-- An address. -/
abbrev Ptr := Nat

/-- The constant `INT32_MAX` of `stdint.h`. -/
def INT32_MAX : Nat := 2147483647

/-- The value of `static char *prefix_`. -/
def prefix_ : List Char := "dispatch_julia".toList

/-- Bit pattern of the `double` 99.0. -/
def F64_99 : Nat := 0x4058C00000000000

/-- Bit pattern of the `double` 25.0. -/
def F64_25 : Nat := 0x4039000000000000

/-- Native values of the embedded runtime (`jl_value_t *`), as far as the adapter
creates or inspects them. -/
inductive JlValue where
  /-- The result of `jl_box_float64`: a boxed 64-bit pattern. -/
  | float64 (bits : Nat)
  /-- The result of `jl_ptr_to_array` for element type `Float64`: a one-dimensional
  array over the memory at `data`. -/
  | array_f64 (data : Ptr) (dims : List Nat) (own_buffer : Bool)
  /-- A boxed `Int64`. -/
  | int64 (v : Int)
  /-- A module. -/
  | module (id : Nat)
  /-- Any other value. -/
  | other (id : Nat)
  deriving DecidableEq, Repr

/-- The state of the process that the adapter and the runtime share. -/
structure World where
  /-- Memory, as the 64-bit pattern stored at each address of a `double`. -/
  mem : Ptr → Nat
  /-- The runtime error state: what `jl_exception_occurred()` returns. -/
  exception : Option Nat
  /-- Whether the next `calloc` or `malloc` returns `NULL`. -/
  alloc_fails : Bool
  /-- Address at which the next stack frame places its local array. -/
  stack : Ptr

/-- The structure `OIFArgs`: a count and the two arrays it points to.  The lists
hold every element that is allocated, which may be more than `num_args`. -/
structure OIFArgs where
  num_args : Nat
  arg_types : List Int
  arg_values : List Ptr

/-- The structure `ImplInfo`. -/
structure ImplInfo where
  dh : Int
  implh : Int
  deriving DecidableEq, Repr

/-- The structure `JuliaImplInfo`; `module` is `none` for a `NULL` pointer. -/
structure JuliaImplInfo where
  base : ImplInfo
  module_name : List Char
  module : Option JlValue
  deriving DecidableEq, Repr

/-- Constants of the dispatch ABI, the C operations that the model leaves open,
and the behaviour of the embedded runtime. -/
structure Env where
  /-- Type tag of a `double` argument. -/
  OIF_FLOAT64 : Int
  /-- Type tag of an array of `double`. -/
  OIF_ARRAY_F64 : Int
  /-- Backend tag of this adapter. -/
  OIF_LANG_JULIA : Int
  /-- The expression `(double) *(float *) p`: the bit pattern of the `double`
  obtained from the `float` that starts at `p`, as a function of the 64-bit
  pattern stored at `p`. -/
  load_float : Nat → Nat
  /-- The function `jl_eval_string`; the result is `none` for `NULL`. -/
  jl_eval_string : List Char → World → World × Option JlValue
  /-- The function `jl_get_function`; the result is `none` for `NULL`. -/
  jl_get_function : Option JlValue → List Char → Option Nat
  /-- The function `jl_call`: the callee runs on the shared state. -/
  jl_call : Nat → List JlValue → World → World × Option JlValue
  /-- The string `sprint(showerror, exc)`. -/
  sprint_showerror : Option Nat → List Char

/-- Messages written by `printf` and `fprintf`, one constructor per format string,
carrying the arguments of the format. -/
inductive Diag where
  | not_julia (pfx : List Char)
  | cannot_convert_input (pfx : List Char) (i : Int) (type_id : Int)
  | cannot_convert_output (pfx : List Char) (i : Int) (type_id : Int)
  | method_not_found (pfx : List Char) (method : List Char) (implh : Int)
  | method_bang_not_found (pfx : List Char) (method : List Char) (implh : Int)
  | error (pfx : List Char) (exc_msg : List Char)
  | called (pfx : List Char)
  | roots (r0 r1 : Nat)
  deriving DecidableEq, Repr

/-- Observable steps of `call_impl`, in program order. -/
inductive Event where
  /-- The macro call `JL_GC_PUSH1(&julia_args[slot])`. -/
  | gc_push (slot : Nat)
  /-- The macro call `JL_GC_POP()`. -/
  | gc_pop
  /-- The call `jl_get_function(impl_info->module, name)`. -/
  | get_function (module : Option JlValue) (name : List Char)
  /-- The call `jl_call(fn, julia_args, num_args)`. -/
  | call (fn : Nat) (args : List JlValue)
  /-- A message on standard output or standard error. -/
  | diag (d : Diag)
  deriving DecidableEq, Repr

/-- How an execution of `call_impl` ends. -/
inductive Outcome where
  /-- The statement `return result`. -/
  | returned (result : Int)
  /-- A failed `assert`, which aborts the process. -/
  | assert_failed
  /-- Undefined behaviour of C: an access outside an object, signed overflow, or
  unboxing a value of another type. -/
  | undefined
  deriving DecidableEq, Repr

/-- Locals of `call_impl` that change while it runs, with the events so far. -/
structure Frame where
  julia_args : List JlValue
  num_stacked_args : Nat
  trace : List Event

/-- The statements `julia_args[i] = v; JL_GC_PUSH1(&julia_args[i]); num_stacked_args++`.
Both loops fill `julia_args` from slot 0 upwards, one slot per iteration, so the
array is the list of the slots written so far. -/
def Frame.stack (f : Frame) (i : Nat) (v : JlValue) : Frame :=
  { julia_args := f.julia_args ++ [v],
    num_stacked_args := f.num_stacked_args + 1,
    trace := f.trace ++ [Event.gc_push i] }

/-- Writing one message. -/
def Frame.print (f : Frame) (d : Diag) : Frame :=
  { f with trace := f.trace ++ [Event.diag d] }

/-- Where control goes after a marshaling loop. -/
inductive Ctl where
  /-- The loop condition failed: control continues after the loop. -/
  | fallthrough (f : Frame)
  /-- The statement `goto cleanup`. -/
  | cleanup (f : Frame)
  /-- An element past the end of an argument array was read. -/
  | undefined (f : Frame)

/-- The loop over the input arguments, lines 149-169, entered at index `i` with
`remaining = in_num_args - i` iterations left. -/
def in_loop (E : Env) (mem : Ptr → Nat) (roots : Ptr) (in_args : OIFArgs) :
    Nat → Nat → Frame → Ctl
  | 0, _, f => Ctl.fallthrough f
  | remaining + 1, i, f =>
    match in_args.arg_types[i]? with
    | none => Ctl.undefined f
    | some t =>
      if t = E.OIF_FLOAT64 then
        match in_args.arg_values[i]? with
        | none => Ctl.undefined f
        | some p =>
          in_loop E mem roots in_args remaining (i + 1) (f.stack i (JlValue.float64 (mem p)))
      else if t = E.OIF_ARRAY_F64 then
        in_loop E mem roots in_args remaining (i + 1)
          (f.stack i (JlValue.array_f64 roots [2] false))
      else
        Ctl.cleanup (f.print (Diag.cannot_convert_input prefix_ i t))

/-- The loop over the output arguments, lines 171-192, entered at index `i` with
`remaining = num_args - i` iterations left.  Here `in_num_args ≤ i`, so
`i - in_num_args` does not wrap. -/
def out_loop (E : Env) (mem : Ptr → Nat) (roots : Ptr) (in_args out_args : OIFArgs)
    (in_num_args : Nat) : Nat → Nat → Frame → Ctl
  | 0, _, f => Ctl.fallthrough f
  | remaining + 1, i, f =>
    match out_args.arg_types[i - in_num_args]? with
    | none => Ctl.undefined f
    | some t =>
      if t = E.OIF_FLOAT64 then
        match in_args.arg_values[i]? with
        | none => Ctl.undefined f
        | some p =>
          out_loop E mem roots in_args out_args in_num_args remaining (i + 1)
            (f.stack i (JlValue.float64 (E.load_float (mem p))))
      else if t = E.OIF_ARRAY_F64 then
        out_loop E mem roots in_args out_args in_num_args remaining (i + 1)
          (f.stack i (JlValue.array_f64 roots [2] false))
      else
        match in_args.arg_types[i]? with
        | none => Ctl.undefined f
        | some t2 => Ctl.cleanup (f.print (Diag.cannot_convert_output prefix_ i t2))

/-- The frame of line 141: nothing marshaled, nothing stacked, nothing done. -/
def frame0 : Frame := { julia_args := [], num_stacked_args := 0, trace := [] }

/-- Both marshaling loops, lines 149-192, from the frame of line 141. -/
def marshal (E : Env) (mem : Ptr → Nat) (roots : Ptr) (in_args out_args : OIFArgs) : Ctl :=
  match in_loop E mem roots in_args in_args.num_args 0 frame0 with
  | Ctl.fallthrough f =>
    out_loop E mem roots in_args out_args in_args.num_args out_args.num_args
      in_args.num_args f
  | c => c

/-- The result of running `call_impl`: how it ended, what it did, the content of
`julia_args`, and the state it left. -/
structure Run where
  outcome : Outcome
  trace : List Event
  julia_args : List JlValue
  world : World

/-- The function `handle_exception_`, lines 22-32: the message it prints and the
state after `jl_exception_clear()`. -/
def handle_exception_ (E : Env) (w : World) : Diag × World :=
  (Diag.error prefix_ (E.sprint_showerror w.exception), { w with exception := none })

/-- The label `cleanup`, lines 237-253: one `JL_GC_POP()` per stacked argument,
then `return result`. -/
def cleanup (result : Int) (f : Frame) (w : World) : Run :=
  { outcome := Outcome.returned result,
    trace := f.trace ++ List.replicate f.num_stacked_args Event.gc_pop,
    julia_args := f.julia_args,
    world := w }

/-- An execution that stops before the label `cleanup`. -/
def stop (o : Outcome) (f : Frame) (w : World) : Run :=
  { outcome := o, trace := f.trace, julia_args := f.julia_args, world := w }

/-- Lines 225-235: the invocation and the check of its result. -/
def invoke (E : Env) (w : World) (roots : Ptr) (fn : Nat) (f : Frame) : Run :=
  let r := E.jl_call fn f.julia_args w
  let f1 : Frame := { f with trace := f.trace ++ [Event.call fn f.julia_args] }
  if r.1.exception.isSome then
    cleanup (-1) (f1.print (handle_exception_ E r.1).1) (handle_exception_ E r.1).2
  else
    match r.2 with
    | some (JlValue.int64 retval) =>
      if retval = 0 then
        cleanup 0
          ((f1.print (Diag.called prefix_)).print
            (Diag.roots (r.1.mem roots) (r.1.mem (roots + 8))))
          r.1
      else stop Outcome.assert_failed f1 r.1
    | _ => stop Outcome.undefined f1 r.1

/-- The name that `call_impl` resolves, lines 199-214. -/
def callable_name (method : List Char) (out_num_args : Nat) : List Char :=
  if out_num_args = 0 then method else method ++ ['!']

/-- Lines 194-235: resolution of the callable, then the invocation.  The buffer
`non_pure_method` has 64 elements; `strcpy` and `strcat` write past it when the
name with its suffix and terminator does not fit. -/
def dispatch (E : Env) (w : World) (roots : Ptr) (impl_info : JuliaImplInfo)
    (method : List Char) (out_num_args : Nat) (f : Frame) : Run :=
  if out_num_args = 0 then
    let f1 : Frame :=
      { f with trace := f.trace ++ [Event.get_function impl_info.module method] }
    match E.jl_get_function impl_info.module method with
    | none =>
      cleanup (-1) (f1.print (Diag.method_not_found prefix_ method impl_info.base.implh)) w
    | some fn => invoke E w roots fn f1
  else if 64 < strlen method + 2 then
    stop Outcome.undefined f w
  else
    let f1 : Frame :=
      { f with trace := f.trace ++ [Event.get_function impl_info.module (method ++ ['!'])] }
    match E.jl_get_function impl_info.module (method ++ ['!']) with
    | none =>
      cleanup (-1) (f1.print (Diag.method_bang_not_found prefix_ method impl_info.base.implh)) w
    | some fn => invoke E w roots fn f1

/-- The declaration `double roots[2] = {99.0, 25.0}` of line 147. -/
def init_roots (w : World) : World :=
  { w with mem := fun p =>
      if p = w.stack then F64_99 else if p = w.stack + 8 then F64_25 else w.mem p }

/-- Lines 127-192 of `call_impl`: the check of the handle, the two assertions,
the sum `in_num_args + out_num_args` in `int32_t`, the allocation of `julia_args`
and both marshaling loops.  Either `call_impl` ends here (`Except.error`), or
control reaches line 194 with every argument marshaled (`Except.ok`). -/
def marshal_args (E : Env) (w : World) (impl_info_ : JuliaImplInfo)
    (in_args out_args : OIFArgs) : Except Run Frame :=
  if impl_info_.base.dh ≠ E.OIF_LANG_JULIA then
    Except.error (stop (Outcome.returned (-1)) (frame0.print (Diag.not_julia prefix_)) w)
  else if ¬ in_args.num_args < INT32_MAX then
    Except.error (stop Outcome.assert_failed frame0 w)
  else if ¬ out_args.num_args < INT32_MAX then
    Except.error (stop Outcome.assert_failed frame0 w)
  else if INT32_MAX < in_args.num_args + out_args.num_args then
    Except.error (stop Outcome.undefined frame0 w)
  else if w.alloc_fails then Except.error (stop (Outcome.returned (-1)) frame0 w)
  else
    match marshal E (init_roots w).mem w.stack in_args out_args with
    | Ctl.undefined f => Except.error (stop Outcome.undefined f (init_roots w))
    | Ctl.cleanup f => Except.error (cleanup (-1) f (init_roots w))
    | Ctl.fallthrough f => Except.ok f

/-- The function `call_impl`, lines 124-254. -/
def call_impl (E : Env) (w : World) (impl_info_ : JuliaImplInfo) (method : List Char)
    (in_args out_args : OIFArgs) : Run :=
  match marshal_args E w impl_info_ in_args out_args with
  | Except.error r => r
  | Except.ok f => dispatch E (init_roots w) w.stack impl_info_ method out_args.num_args f

/-! ## The function `load_impl` -/

/-- Observable steps of `load_impl`, in program order. -/
inductive LoadEvent where
  /-- The call `jl_init()`. -/
  | jl_init
  /-- The message of line 67. -/
  | log_filename (pfx : List Char) (module_filename : List Char)
  /-- The message of line 68. -/
  | log_name (pfx : List Char) (module_name : List Char)
  /-- The message of line 72. -/
  | log_executing (include_statement : List Char)
  /-- A call of `jl_eval_string`. -/
  | eval_string (code : List Char)
  /-- The calls `jl_static_show(jl_stdout_stream(), retval); jl_printf(...)`. -/
  | static_show (retval : Option JlValue)
  /-- The message of line 95. -/
  | log_alloc_failed (pfx : List Char)
  /-- The message printed by `handle_exception_`. -/
  | diag (d : Diag)
  deriving DecidableEq, Repr

/-- The result of running `load_impl`: the returned handle (`none` for `NULL`),
or `none` altogether when the execution has undefined behaviour; what it did;
and the state it left. -/
structure LoadRun where
  result : Option (Option JuliaImplInfo)
  trace : List LoadEvent
  world : World

/-- The double quote character. -/
def DQUOTE : Char := Char.ofNat 34

/-- The text that `sprintf` writes into `include_statement`, line 71. -/
def include_statement (module_filename : List Char) : List Char :=
  "include(".toList ++ [DQUOTE] ++ "oif_impl/impl/".toList ++ module_filename
    ++ [DQUOTE] ++ ")".toList

/-- The text that `sprintf` writes into `import_statement`, line 74. -/
def import_statement (module_name : List Char) : List Char :=
  "import .".toList ++ module_name

/-- The function `load_impl`, lines 34-111.  The block returned by `malloc` is
not initialised, so `base` of the new handle holds the indeterminate value
`uninit`.  The field `module_name` of the handle points at the local buffer; the
embedding records the string that the buffer holds when `load_impl` returns.  A
buffer without NUL cannot be read as a string; both statements fit their 1024
characters whenever the buffers hold strings. -/
def load_impl (E : Env) (w : World) (uninit : ImplInfo) (impl_details : List Char)
    (_version_major _version_minor : Nat) : LoadRun :=
  match parse_descriptor impl_details with
  | none => { result := none, trace := [LoadEvent.jl_init], world := w }
  | some (module_filename, module_name) =>
    if ¬ (NUL ∈ module_filename ∧ NUL ∈ module_name) then
      { result := none, trace := [LoadEvent.jl_init], world := w }
    else
      let t0 := [LoadEvent.jl_init,
        LoadEvent.log_filename prefix_ (cstr module_filename),
        LoadEvent.log_name prefix_ (cstr module_name),
        LoadEvent.log_executing (include_statement (cstr module_filename))]
      let r1 := E.jl_eval_string (include_statement (cstr module_filename)) w
      let t1 := t0 ++ [LoadEvent.eval_string (include_statement (cstr module_filename))]
      if r1.1.exception.isSome then
        { result := some none,
          trace := t1 ++ [LoadEvent.diag (handle_exception_ E r1.1).1],
          world := (handle_exception_ E r1.1).2 }
      else
        let r2 := E.jl_eval_string (import_statement (cstr module_name)) r1.1
        let t2 := t1 ++ [LoadEvent.static_show r1.2,
          LoadEvent.eval_string (import_statement (cstr module_name))]
        if r2.1.exception.isSome then
          { result := some none,
            trace := t2 ++ [LoadEvent.diag (handle_exception_ E r2.1).1],
            world := (handle_exception_ E r2.1).2 }
        else
          let r3 := E.jl_eval_string "QeqSolver".toList r2.1
          let t3 := t2 ++ [LoadEvent.static_show r2.2,
            LoadEvent.eval_string "QeqSolver".toList]
          if r3.1.alloc_fails then
            { result := some none,
              trace := t3 ++ [LoadEvent.log_alloc_failed prefix_],
              world := r3.1 }
          else
            { result := some (some { base := uninit,
                                     module_name := cstr module_name,
                                     module := r3.2 }),
              trace := t3,
              world := r3.1 }

/-! ## A concrete runtime: the solver of the end-to-end example -/

/-- Bit pattern of the `double` 1.0. -/
def F64_1 : Nat := 0x3FF0000000000000

/-- Bit pattern of the `double` 2.0. -/
def F64_2 : Nat := 0x4000000000000000

/-- Bit pattern of the `double` -3.0. -/
def F64_m3 : Nat := 0xC008000000000000

/-- The module `QeqSolver`. -/
def qeq_module : JlValue := JlValue.module 1

/-- The callables of `QeqSolver`: `solve!` is function 1, `raise!` is function 2,
`five!` is function 3, `noop!` is function 4. -/
def qeq_get_function (m : Option JlValue) (name : List Char) : Option Nat :=
  if m = some qeq_module then
    if name = "solve!".toList then some 1
    else if name = "raise!".toList then some 2
    else if name = "five!".toList then some 3
    else if name = "noop!".toList then some 4
    else none
  else none

/-- The callees: `solve!` stores the roots 2.0 and 1.0 of `x^2 - 3x + 2` through
its fourth argument and returns 0; `raise!` raises exception 2; `five!` returns 5;
`noop!` returns 0. -/
def qeq_call (fn : Nat) (args : List JlValue) (w : World) : World × Option JlValue :=
  if fn = 1 then
    match args[3]? with
    | some (JlValue.array_f64 data _ _) =>
      ({ w with mem := fun p =>
          if p = data then F64_2 else if p = data + 8 then F64_1 else w.mem p },
        some (JlValue.int64 0))
    | _ => ({ w with exception := some 1 }, none)
  else if fn = 2 then ({ w with exception := some 2 }, none)
  else if fn = 3 then (w, some (JlValue.int64 5))
  else (w, some (JlValue.int64 0))

/-- A runtime in which `QeqSolver` is loaded, for a given conversion of `float`
to `double`. -/
def qeq_env (load_float : Nat → Nat) : Env where
  OIF_FLOAT64 := 3
  OIF_ARRAY_F64 := 5
  OIF_LANG_JULIA := 4
  load_float := load_float
  jl_eval_string := fun code w =>
    if code = "QeqSolver".toList then (w, some qeq_module) else (w, some (JlValue.other 0))
  jl_get_function := qeq_get_function
  jl_call := qeq_call
  sprint_showerror := fun exc =>
    match exc with
    | some 2 => "ErrorException".toList
    | _ => "MethodError".toList

/-- The caller's memory: 1.0, -3.0 and 2.0 at 1000, 1008 and 1016, the content `b`
at 2000, and zero elsewhere; the stack frame of the next call puts its array at 9000. -/
def qeq_world (b : Nat) : World where
  mem := fun p =>
    if p = 1000 then F64_1 else if p = 1008 then F64_m3 else if p = 1016 then F64_2
    else if p = 2000 then b else 0
  exception := none
  alloc_fails := false
  stack := 9000

/-- A handle for `QeqSolver`. -/
def qeq_handle : JuliaImplInfo :=
  { base := { dh := 4, implh := 1 }, module_name := "QeqSolver".toList,
    module := some qeq_module }

/-- The input arguments `1.0, -3.0, 2.0` of the example. -/
def qeq_in : OIFArgs := { num_args := 3, arg_types := [3, 3, 3], arg_values := [1000, 1008, 1016] }

/-- An empty argument list. -/
def no_args : OIFArgs := { num_args := 0, arg_types := [], arg_values := [] }

/-- The output argument of the example: an array of two `double` at 2000. -/
def qeq_out : OIFArgs := { num_args := 1, arg_types := [5], arg_values := [2000] }

/-- One input `double` at 1000, in arrays that end there. -/
def one_in : OIFArgs := { num_args := 1, arg_types := [3], arg_values := [1000] }

/-- One input `double` at 1000, in arrays that were allocated for two arguments:
the unused second elements hold the tag 5 and the address 1008. -/
def one_in_spare : OIFArgs := { num_args := 1, arg_types := [3, 5], arg_values := [1000, 1008] }

/-- One output `double` at 2000. -/
def scalar_out : OIFArgs := { num_args := 1, arg_types := [3], arg_values := [2000] }

/-- One output argument at 2000 with the unsupported type tag 99. -/
def bad_out : OIFArgs := { num_args := 1, arg_types := [99], arg_values := [2000] }

/-- A runtime in which the file and the import load, and the name `QeqSolver` is
not defined: evaluating it raises exception 3. -/
def other_env : Env :=
  { qeq_env id with
    jl_eval_string := fun code w =>
      if code = "QeqSolver".toList then ({ w with exception := some 3 }, none)
      else (w, some (JlValue.other 0)) }

/-- A runtime in which every evaluation raises exception 1. -/
def broken_env : Env :=
  { qeq_env id with
    jl_eval_string := fun _ w => ({ w with exception := some 1 }, none) }

/-! ## Definitions used in statements and proofs -/

/-- The events `JL_GC_PUSH1(&julia_args[0])`, ..., `JL_GC_PUSH1(&julia_args[k - 1])`. -/
def pushes (k : Nat) : List Event := (List.range k).map Event.gc_push

/-- A number of `JL_GC_POP()` events. -/
def pops (k : Nat) : List Event := List.replicate k Event.gc_pop

/-- Whether an event is a GC push. -/
def Event.isPush : Event → Bool
  | Event.gc_push _ => true
  | _ => false

/-- Whether an event is a GC pop. -/
def Event.isPop : Event → Bool
  | Event.gc_pop => true
  | _ => false

/-- Whether an event is a lookup of a callable in the module of the handle. -/
def Event.isLookup : Event → Bool
  | Event.get_function _ _ => true
  | _ => false

/-- Whether an event is an invocation. -/
def Event.isCall : Event → Bool
  | Event.call _ _ => true
  | _ => false

/-- Whether an event is a message. -/
def Event.isDiag : Event → Bool
  | Event.diag _ => true
  | _ => false

/-- The frame invariant of the marshaling loops: every slot written so far has
been pushed, in order, and nothing else has happened. -/
def Frame.wf (f : Frame) : Prop :=
  f.num_stacked_args = f.julia_args.length ∧ f.trace = pushes f.julia_args.length

/-- What the frame invariant gives at each exit of a marshaling loop that is
left with `n` slots written on fallthrough. -/
def Ctl.wf : Ctl → Nat → Prop
  | Ctl.fallthrough g, n => g.wf ∧ g.julia_args.length = n
  | Ctl.cleanup g, _ => ∃ (g0 : Frame) (d : Diag), g0.wf ∧ g = g0.print d
  | Ctl.undefined g, _ => g.wf

/-- A character that both parsing loops copy: neither a space nor NUL. -/
def copied (c : Char) : Bool := c != SPACE && c != NUL

/-- What `name_loop` leaves in `module_name` for one character of the descriptor. -/
def name_char (c : Char) : Char := if copied c then c else NUL

/-- The message printed when the callable is not found. -/
def not_found_diag (method : List Char) (out_num_args : Nat) (implh : Int) : Diag :=
  if out_num_args = 0 then Diag.method_not_found prefix_ method implh
  else Diag.method_bang_not_found prefix_ method implh

/-- The frame after the lookup of `name`. -/
def Frame.lookup (f : Frame) (module : Option JlValue) (name : List Char) : Frame :=
  { f with trace := f.trace ++ [Event.get_function module name] }

/-- The shape of a trace: the pushes of the slots `0, ..., k - 1` in order, then
events that neither push nor pop, then `p` pops. -/
def shaped (r : Run) (k : Nat) : Prop :=
  ∃ (work : List Event) (p : Nat),
    r.trace = pushes k ++ (work ++ pops p) ∧
    (∀ e ∈ work, e.isPush = false ∧ e.isPop = false) ∧
    r.julia_args.length = k ∧
    (∀ s, r.outcome = Outcome.returned s → p = k)

/-! ## Lemmas: the parsing loops -/

theorem store_at_end (w : List Char) (m : Nat) (c : Char) :
    store (w ++ List.replicate (m + 1) NUL) w.length c
      = some (w ++ c :: List.replicate m NUL) := by
  simp [store, List.replicate_succ]

theorem store_nul_noop (w : List Char) (m i : Nat) (h1 : w.length ≤ i)
    (h2 : i < w.length + m) :
    store (w ++ List.replicate m NUL) i NUL = some (w ++ List.replicate m NUL) := by
  have hlen : i < (w ++ List.replicate m NUL).length := by simpa using h2
  simp only [store, hlen, if_true]
  congr 1
  apply List.ext_getElem
  · simp
  · intro n hn1 hn2
    rw [List.getElem_set]
    split
    · next h =>
      subst h
      rw [List.getElem_append_right h1]
      simp
    · rfl

theorem getD_append_cons (front back : List Char) (c : Char) :
    (front ++ c :: back).getD front.length NUL = c := by
  rw [List.getD_eq_getElem?_getD, List.getElem?_append_right (le_refl _)]
  simp

theorem takeWhile_append_stop (p : Char → Bool) (pre rest : List Char) (c : Char)
    (hpre : ∀ x ∈ pre, p x = true) (hc : p c = false) :
    (pre ++ c :: rest).takeWhile p = pre := by
  induction pre with
  | nil => simp [List.takeWhile_cons, hc]
  | cons x pre ih =>
    have hx : p x = true := hpre x (by simp)
    simp [List.takeWhile_cons, hx, ih (fun y hy => hpre y (by simp [hy]))]

theorem takeWhile_all (p : Char → Bool) (l : List Char) (h : ∀ x ∈ l, p x = true) :
    l.takeWhile p = l := by
  induction l with
  | nil => rfl
  | cons x l ih =>
    have hx : p x = true := h x (by simp)
    simp [List.takeWhile_cons, hx, ih (fun y hy => h y (by simp [hy]))]

theorem filename_loop_eq (back : List Char) :
    ∀ (front : List Char) (m : Nat), back.length < m →
      filename_loop (front ++ back) back.length front.length
          (front ++ List.replicate m NUL)
        = some (front.length + (back.takeWhile copied).length,
            front ++ (back.takeWhile copied
              ++ List.replicate (m - (back.takeWhile copied).length) NUL)) := by
  induction back with
  | nil => intro front m _; simp [filename_loop]
  | cons c back ih =>
    intro front m hm
    obtain ⟨k, rfl⟩ : ∃ k, m = k + 1 := ⟨m - 1, by simp at hm; omega⟩
    have hk : back.length < k := by simp at hm; omega
    simp only [List.length_cons, filename_loop, getD_append_cons]
    by_cases hc : copied c = true
    · have hc2 : (c != SPACE && c != NUL) = true := hc
      have hrec := ih (front ++ [c]) k hk
      simp only [List.append_assoc, List.singleton_append, List.length_append,
        List.length_singleton] at hrec
      rw [if_pos hc2, store_at_end, Option.some_bind, hrec, List.takeWhile_cons_of_pos hc]
      simp only [List.length_cons, List.cons_append, Nat.add_sub_add_right]
      congr 2
      omega
    · have hc2 : ¬ (c != SPACE && c != NUL) = true := hc
      rw [if_neg hc2, store_nul_noop front (k + 1) front.length (le_refl _) (by omega)]
      simp [List.takeWhile_cons_of_neg hc]

theorem name_loop_eq (offset : Nat) (back : List Char) :
    ∀ (front w : List Char) (m : Nat), offset ≤ front.length →
      w.length = front.length - offset →
      front.length + back.length ≤ w.length + m →
      front.length + back.length < 2 ^ 64 →
      name_loop (front ++ back) offset back.length front.length
          (w ++ List.replicate m NUL)
        = some (w ++ (back.map name_char ++ List.replicate (m - back.length) NUL)) := by
  induction back with
  | nil => intro front w m _ _ _ _; simp [name_loop]
  | cons c back ih =>
    intro front w m hoff hw hcap hbig
    simp only [List.length_cons] at hcap hbig
    obtain ⟨k, rfl⟩ : ∃ k, m = k + 1 := ⟨m - 1, by omega⟩
    have hidx : (front.length + 2 ^ 64 - offset) % 2 ^ 64 = w.length := by
      have : front.length + 2 ^ 64 - offset = (front.length - offset) + 2 ^ 64 := by omega
      rw [this, Nat.add_mod_right, Nat.mod_eq_of_lt (by omega), hw]
    have hrec := ih (front ++ [c]) (w ++ [name_char c]) k
      (by simp; omega) (by simp; omega) (by simp; omega) (by simp; omega)
    simp only [List.append_assoc, List.singleton_append, List.length_append,
      List.length_singleton] at hrec
    simp only [List.length_cons, name_loop, getD_append_cons, List.map_cons,
      Nat.add_sub_add_right, List.cons_append]
    by_cases hc : copied c = true
    · have hc2 : (c != SPACE && c != NUL) = true := hc
      have hn : name_char c = c := by simp [name_char, hc]
      rw [hn] at hrec ⊢
      rw [if_pos hc2, hidx, store_at_end, Option.some_bind, hrec]
    · have hc2 : ¬ (c != SPACE && c != NUL) = true := hc
      have hn : name_char c = NUL := by simp [name_char, hc]
      rw [hn] at hrec ⊢
      rw [if_neg hc2, store_nul_noop w (k + 1) front.length (by omega) (by omega),
        Option.some_bind, List.replicate_succ, hrec]

/-- Both buffers after the parsing loops when the descriptor has no separator. -/
theorem parse_descriptor_plain (d : List Char) (hd : ∀ c ∈ d, copied c = true)
    (hlen : d.length < BUF_SIZE) :
    parse_descriptor d
      = some (d ++ List.replicate (BUF_SIZE - d.length) NUL, zero_buffer) := by
  have h1 := filename_loop_eq d [] BUF_SIZE hlen
  simp only [List.nil_append, List.length_nil, Nat.zero_add, takeWhile_all copied d hd] at h1
  simp [parse_descriptor, strlen, zero_buffer, h1, name_loop]

/-- Both buffers after the parsing loops when the first separator (a space, or
NUL) is the character `c` that follows `pre`. -/
theorem parse_descriptor_split (pre rest : List Char) (c : Char)
    (hpre : ∀ x ∈ pre, copied x = true) (hc : copied c = false)
    (hlen : (pre ++ c :: rest).length < BUF_SIZE) :
    parse_descriptor (pre ++ c :: rest)
      = some (pre ++ List.replicate (BUF_SIZE - pre.length) NUL,
              rest.map name_char ++ List.replicate (BUF_SIZE - rest.length) NUL) := by
  have hBUF : BUF_SIZE = 512 := rfl
  have hl : pre.length + (rest.length + 1) < BUF_SIZE := by simpa using hlen
  have h1 := filename_loop_eq (pre ++ c :: rest) [] BUF_SIZE hlen
  simp only [List.nil_append, List.length_nil, Nat.zero_add,
    takeWhile_append_stop copied pre rest c hpre hc] at h1
  have hc2 : ¬ (c != SPACE && c != NUL) = true := by
    have : copied c = false := hc
    simp only [copied] at this
    simp [this]
  have hrem : (pre ++ c :: rest).length - pre.length = rest.length + 1 := by simp
  have h0 : store (List.replicate BUF_SIZE NUL) pre.length NUL
      = some (List.replicate BUF_SIZE NUL) := by
    have := store_nul_noop [] BUF_SIZE pre.length (by simp) (by simp; omega)
    simpa using this
  have h2 := name_loop_eq (pre.length + 1) rest (pre ++ [c]) [] BUF_SIZE
    (by simp) (by simp) (by simp; omega) (by simp; omega)
  simp only [List.append_assoc, List.singleton_append, List.length_append,
    List.length_singleton, List.nil_append] at h2
  simp only [parse_descriptor, strlen, zero_buffer, h1, Option.some_bind, hrem, name_loop,
    getD_append_cons, if_neg hc2, h0, h2, Option.map_some']

/-- Reading a buffer as a C string stops at the first character that was not copied. -/
theorem cstr_map_name_char (l : List Char) (k : Nat) :
    cstr (l.map name_char ++ List.replicate k NUL) = l.takeWhile copied := by
  induction l with
  | nil =>
    simp only [List.map_nil, List.nil_append, List.takeWhile_nil, cstr]
    induction k with
    | zero => simp
    | succ k _ => simp [List.replicate_succ]
  | cons c l ih =>
    by_cases hc : copied c = true
    · have hn : name_char c = c := by simp [name_char, hc]
      have hne : (c != NUL) = true := by
        simp only [copied, Bool.and_eq_true] at hc
        exact hc.2
      simp only [cstr] at ih
      simp [cstr, hn, hne, List.takeWhile_cons_of_pos hc, ih]
    · have hn : name_char c = NUL := by simp [name_char, hc]
      simp [cstr, hn, List.takeWhile_cons_of_neg hc]

theorem cstr_padded (l : List Char) (k : Nat) (h : ∀ c ∈ l, c ≠ NUL) :
    cstr (l ++ List.replicate k NUL) = l := by
  induction l with
  | nil =>
    simp only [List.nil_append, cstr]
    induction k with
    | zero => simp
    | succ k _ => simp [List.replicate_succ]
  | cons c l ih =>
    have hc : c ≠ NUL := h c (by simp)
    have ih2 := ih (fun x hx => h x (by simp [hx]))
    simp only [cstr] at ih2
    simp [cstr, hc, ih2]

/-! ## Theorems: descriptor parsing -/

theorem dropWhile_append_stop (p : Char → Bool) (pre rest : List Char) (c : Char)
    (hpre : ∀ x ∈ pre, p x = true) (hc : p c = false) :
    (pre ++ c :: rest).dropWhile p = c :: rest := by
  induction pre with
  | nil => simp [List.dropWhile_cons, hc]
  | cons x pre ih =>
    have hx : p x = true := hpre x (by simp)
    simp [List.dropWhile_cons, hx, ih (fun y hy => hpre y (by simp [hy]))]

theorem takeWhile_copied_eq (l : List Char) (h : ∀ c ∈ l, c ≠ NUL) :
    l.takeWhile copied = l.takeWhile (fun c => c != SPACE) := by
  induction l with
  | nil => rfl
  | cons x l ih =>
    have hx : x ≠ NUL := h x (by simp)
    have ih2 := ih (fun y hy => h y (by simp [hy]))
    simp only [List.takeWhile_cons, ih2, copied]
    simp [hx]

theorem cstr_zero_buffer : cstr zero_buffer = [] := by
  have h := cstr_padded [] BUF_SIZE (by simp)
  simpa [zero_buffer] using h

theorem getElem?_padded (l : List Char) (k : Nat) (hk : 0 < k) :
    (l ++ List.replicate k NUL)[l.length]? = some NUL := by
  rw [List.getElem?_append_right (le_refl _)]
  simp [hk]

/-- C3: for every descriptor shorter than 512 characters that consists of a path
without space, one space, and a name without space, the parsing loops of
`load_impl` leave in `module_filename` exactly the path and in `module_name`
exactly the name, each followed by a NUL (also when the path or the name is
empty). -/
theorem load_impl_parses_single_space (path name : List Char)
    (hpath : ∀ c ∈ path, c ≠ SPACE ∧ c ≠ NUL) (hname : ∀ c ∈ name, c ≠ SPACE ∧ c ≠ NUL)
    (hlen : (path ++ SPACE :: name).length < 512) :
    ∃ module_filename module_name,
      parse_descriptor (path ++ SPACE :: name) = some (module_filename, module_name) ∧
      cstr module_filename = path ∧ cstr module_name = name ∧
      module_filename[path.length]? = some NUL ∧ module_name[name.length]? = some NUL := by
  have hl : path.length + (name.length + 1) < 512 := by simpa using hlen
  have hcp : ∀ x ∈ path, copied x = true := fun x hx => by
    simp [copied, (hpath x hx).1, (hpath x hx).2]
  have hcn : ∀ x ∈ name, copied x = true := fun x hx => by
    simp [copied, (hname x hx).1, (hname x hx).2]
  have hsp : copied SPACE = false := by simp [copied]
  refine ⟨_, _, parse_descriptor_split path name SPACE hcp hsp hlen, ?_, ?_, ?_, ?_⟩
  · exact cstr_padded _ _ (fun c hc => (hpath c hc).2)
  · rw [cstr_map_name_char]
    exact takeWhile_all copied name hcn
  · exact getElem?_padded _ _ (by simp only [BUF_SIZE]; omega)
  · have hmap : name.map name_char = name := by
      conv_rhs => rw [← List.map_id name]
      apply List.map_congr_left
      intro x hx
      simp [name_char, hcn x hx]
    rw [hmap]
    exact getElem?_padded _ _ (by simp only [BUF_SIZE]; omega)

theorem load_impl_parses_single_space_witness :
    ("qeq_solver.jl".toList ++ SPACE :: "QeqSolver".toList).length < 512 ∧
    ∃ module_filename module_name,
      parse_descriptor ("qeq_solver.jl".toList ++ SPACE :: "QeqSolver".toList)
        = some (module_filename, module_name) ∧
      cstr module_filename = "qeq_solver.jl".toList ∧
      cstr module_name = "QeqSolver".toList ∧
      module_filename["qeq_solver.jl".toList.length]? = some NUL ∧
      module_name["QeqSolver".toList.length]? = some NUL :=
  ⟨by decide,
    load_impl_parses_single_space "qeq_solver.jl".toList "QeqSolver".toList
      (by decide) (by decide) (by decide)⟩

/-- C10: for every descriptor shorter than 512 characters, the module name left
by the parsing loops of `load_impl` is the text strictly between the first space
and the second space, or the end of the descriptor when there is no second space;
text after a second space is not part of the name; and for a descriptor without
any space the module filename is the whole descriptor and the module name is
empty. -/
theorem load_impl_module_name_stops_at_second_space (d : List Char)
    (hnul : ∀ c ∈ d, c ≠ NUL) (hlen : d.length < 512) :
    ∃ module_filename module_name,
      parse_descriptor d = some (module_filename, module_name) ∧
      cstr module_name
        = ((d.dropWhile (fun c => c != SPACE)).drop 1).takeWhile (fun c => c != SPACE) ∧
      (∀ path name rest, d = path ++ SPACE :: (name ++ SPACE :: rest) →
        SPACE ∉ path → SPACE ∉ name → cstr module_name = name) ∧
      (SPACE ∉ d → cstr module_filename = d ∧ cstr module_name = []) := by
  have key : ∃ module_filename module_name,
      parse_descriptor d = some (module_filename, module_name) ∧
      cstr module_name
        = ((d.dropWhile (fun c => c != SPACE)).drop 1).takeWhile (fun c => c != SPACE) ∧
      (SPACE ∉ d → cstr module_filename = d ∧ cstr module_name = []) := by
    have hsplit := List.takeWhile_append_dropWhile (fun c => c != SPACE) d
    have hpre : ∀ x ∈ d.takeWhile (fun c => c != SPACE), copied x = true := by
      intro x hx
      have h1 := List.mem_takeWhile_imp hx
      have h2 : x ≠ NUL := hnul x (List.takeWhile_subset _ hx)
      simp only [copied, h1, Bool.true_and]
      simpa using h2
    cases hdw : d.dropWhile (fun c => c != SPACE) with
    | nil =>
      rw [hdw, List.append_nil] at hsplit
      rw [hsplit] at hpre
      refine ⟨_, _, parse_descriptor_plain d hpre hlen, ?_, ?_⟩
      · simp [cstr_zero_buffer]
      · intro _
        exact ⟨cstr_padded _ _ hnul, cstr_zero_buffer⟩
    | cons c rest =>
      rw [hdw] at hsplit
      have hc : c = SPACE := by
        have := List.head_dropWhile_not (fun c => c != SPACE) d (by simp [hdw])
        simpa [hdw] using this
      subst hc
      have hsp : copied SPACE = false := by simp [copied]
      have hlen2 : (d.takeWhile (fun c => c != SPACE) ++ SPACE :: rest).length < BUF_SIZE := by
        rw [hsplit]; exact hlen
      have hp := parse_descriptor_split _ rest SPACE hpre hsp hlen2
      rw [hsplit] at hp
      have hrest : ∀ x ∈ rest, x ≠ NUL := by
        intro x hx
        apply hnul
        rw [← hsplit]
        simp [hx]
      refine ⟨_, _, hp, ?_, ?_⟩
      · rw [cstr_map_name_char, takeWhile_copied_eq rest hrest]
        simp
      · intro hno
        exfalso
        apply hno
        rw [← hsplit]
        simp
  obtain ⟨mf, mn, hp, hname, hplain⟩ := key
  refine ⟨mf, mn, hp, hname, ?_, hplain⟩
  intro path name rest hd hpath hnm
  have h1 : ∀ x ∈ path, (fun c => c != SPACE) x = true := by
    intro x hx
    have : x ≠ SPACE := fun h => hpath (h ▸ hx)
    simpa using this
  have h2 : ∀ x ∈ name, (fun c => c != SPACE) x = true := by
    intro x hx
    have : x ≠ SPACE := fun h => hnm (h ▸ hx)
    simpa using this
  have h3 : (fun c => c != SPACE) SPACE = false := by simp
  rw [hname, hd, dropWhile_append_stop _ path _ SPACE h1 h3, List.drop_one, List.tail_cons,
    takeWhile_append_stop _ name rest SPACE h2 h3]

theorem load_impl_module_name_stops_at_second_space_witness :
    "a.jl Mod extra text".toList.length < 512 ∧
    ∃ module_filename module_name,
      parse_descriptor "a.jl Mod extra text".toList = some (module_filename, module_name) ∧
      cstr module_name
        = (("a.jl Mod extra text".toList.dropWhile (fun c => c != SPACE)).drop 1).takeWhile
            (fun c => c != SPACE) ∧
      (∀ path name rest,
        "a.jl Mod extra text".toList = path ++ SPACE :: (name ++ SPACE :: rest) →
        SPACE ∉ path → SPACE ∉ name → cstr module_name = name) ∧
      (SPACE ∉ "a.jl Mod extra text".toList →
        cstr module_filename = "a.jl Mod extra text".toList ∧ cstr module_name = []) :=
  ⟨by decide,
    load_impl_module_name_stops_at_second_space "a.jl Mod extra text".toList
      (by decide) (by decide)⟩

/-! ## Lemmas: the marshaling loops keep the frame invariant -/

theorem pushes_succ (k : Nat) : pushes (k + 1) = pushes k ++ [Event.gc_push k] := by
  simp [pushes, List.range_succ]

theorem Frame.wf_stack (f : Frame) (v : JlValue) (h : f.wf) :
    (f.stack f.julia_args.length v).wf := by
  obtain ⟨h1, h2⟩ := h
  constructor
  · simp [Frame.stack, h1]
  · simp [Frame.stack, h2, pushes_succ]

theorem in_loop_wf (E : Env) (mem : Ptr → Nat) (roots : Ptr) (in_args : OIFArgs) :
    ∀ (remaining : Nat) (f : Frame), f.wf →
      (in_loop E mem roots in_args remaining f.julia_args.length f).wf
        (f.julia_args.length + remaining) := by
  intro remaining
  induction remaining with
  | zero => intro f hf; exact ⟨hf, rfl⟩
  | succ n ih =>
    intro f hf
    have hstep : ∀ v, (in_loop E mem roots in_args n (f.julia_args.length + 1)
        (f.stack f.julia_args.length v)).wf (f.julia_args.length + (n + 1)) := by
      intro v
      have := ih (f.stack f.julia_args.length v) (f.wf_stack v hf)
      simpa [Frame.stack, Nat.add_assoc, Nat.add_comm 1 n] using this
    unfold in_loop
    split
    · exact hf
    · split
      · split
        · exact hf
        · exact hstep _
      · split
        · exact hstep _
        · exact ⟨f, _, hf, rfl⟩

theorem out_loop_wf (E : Env) (mem : Ptr → Nat) (roots : Ptr) (in_args out_args : OIFArgs)
    (in_num_args : Nat) :
    ∀ (remaining : Nat) (f : Frame), f.wf →
      (out_loop E mem roots in_args out_args in_num_args remaining f.julia_args.length f).wf
        (f.julia_args.length + remaining) := by
  intro remaining
  induction remaining with
  | zero => intro f hf; exact ⟨hf, rfl⟩
  | succ n ih =>
    intro f hf
    have hstep : ∀ v, (out_loop E mem roots in_args out_args in_num_args n
        (f.julia_args.length + 1) (f.stack f.julia_args.length v)).wf
          (f.julia_args.length + (n + 1)) := by
      intro v
      have := ih (f.stack f.julia_args.length v) (f.wf_stack v hf)
      simpa [Frame.stack, Nat.add_assoc, Nat.add_comm 1 n] using this
    unfold out_loop
    split
    · exact hf
    · split
      · split
        · exact hf
        · exact hstep _
      · split
        · exact hstep _
        · split
          · exact hf
          · exact ⟨f, _, hf, rfl⟩

theorem marshal_wf (E : Env) (mem : Ptr → Nat) (roots : Ptr) (in_args out_args : OIFArgs) :
    (marshal E mem roots in_args out_args).wf (in_args.num_args + out_args.num_args) := by
  have h0 : frame0.wf := ⟨rfl, rfl⟩
  have h1 := in_loop_wf E mem roots in_args in_args.num_args _ h0
  simp only [frame0, List.length_nil, Nat.zero_add] at h1
  unfold marshal
  simp only [frame0]
  split
  · next f hf =>
    rw [hf] at h1
    obtain ⟨hwf, hlen⟩ := h1
    have h2 := out_loop_wf E mem roots in_args out_args in_args.num_args
      out_args.num_args f hwf
    rw [hlen] at h2
    exact h2
  · next c hc =>
    cases hin : in_loop E mem roots in_args in_args.num_args 0
        { julia_args := [], num_stacked_args := 0, trace := [] } with
    | fallthrough g => exact absurd hin (hc g)
    | cleanup g => rw [hin] at h1; exact h1
    | undefined g => rw [hin] at h1; exact h1

/-! ## Lemmas: the paths of `call_impl` -/

/-- When the suffixed name fits `non_pure_method`, both branches of the
resolution do the same with their own name. -/
theorem dispatch_eq (E : Env) (w : World) (roots : Ptr) (impl_info : JuliaImplInfo)
    (method : List Char) (n : Nat) (f : Frame) (hfit : n = 0 ∨ method.length ≤ 62) :
    dispatch E w roots impl_info method n f
      = match E.jl_get_function impl_info.module (callable_name method n) with
        | none =>
          cleanup (-1)
            ((f.lookup impl_info.module (callable_name method n)).print
              (not_found_diag method n impl_info.base.implh)) w
        | some fn =>
          invoke E w roots fn (f.lookup impl_info.module (callable_name method n)) := by
  by_cases hn : n = 0
  · simp [dispatch, hn, callable_name, not_found_diag, Frame.lookup]
  · have hlen : ¬ 64 < strlen method + 2 := by
      rcases hfit with h | h
      · exact absurd h hn
      · simp only [strlen]; omega
    simp only [dispatch, if_neg hn, if_neg hlen, callable_name, not_found_diag, Frame.lookup]

theorem call_impl_of_marshaled (E : Env) (w : World) (impl_info_ : JuliaImplInfo)
    (method : List Char) (in_args out_args : OIFArgs) (f : Frame)
    (hm : marshal_args E w impl_info_ in_args out_args = Except.ok f) :
    call_impl E w impl_info_ method in_args out_args
      = dispatch E (init_roots w) w.stack impl_info_ method out_args.num_args f := by
  simp [call_impl, hm]

theorem call_impl_of_stopped (E : Env) (w : World) (impl_info_ : JuliaImplInfo)
    (method : List Char) (in_args out_args : OIFArgs) (r : Run)
    (hm : marshal_args E w impl_info_ in_args out_args = Except.error r) :
    call_impl E w impl_info_ method in_args out_args = r := by
  simp [call_impl, hm]

/-- A frame that reaches line 194 satisfies the frame invariant and holds one
value per argument. -/
theorem marshal_args_ok (E : Env) (w : World) (impl_info_ : JuliaImplInfo)
    (in_args out_args : OIFArgs) (f : Frame)
    (hm : marshal_args E w impl_info_ in_args out_args = Except.ok f) :
    f.wf ∧ f.julia_args.length = in_args.num_args + out_args.num_args ∧
      marshal E (init_roots w).mem w.stack in_args out_args = Ctl.fallthrough f := by
  have hw := marshal_wf E (init_roots w).mem w.stack in_args out_args
  unfold marshal_args at hm
  split_ifs at hm
  cases hc : marshal E (init_roots w).mem w.stack in_args out_args with
  | fallthrough g =>
    rw [hc] at hm hw
    simp only [Except.ok.injEq] at hm
    subst hm
    exact ⟨hw.1, hw.2, rfl⟩
  | cleanup g => rw [hc] at hm; simp at hm
  | undefined g => rw [hc] at hm; simp at hm

/-- An execution that ends before line 194 made no lookup and no invocation,
printed at most one message, popped what it pushed if it returned, and did not
return 0. -/
theorem marshal_args_error (E : Env) (w : World) (impl_info_ : JuliaImplInfo)
    (in_args out_args : OIFArgs) (r : Run)
    (hm : marshal_args E w impl_info_ in_args out_args = Except.error r) :
    ∃ (ds : List Diag) (p : Nat),
      r.trace = pushes r.julia_args.length ++ (ds.map Event.diag ++ pops p) ∧
      (∀ s, r.outcome = Outcome.returned s → p = r.julia_args.length ∧ s = -1) := by
  have hw := marshal_wf E (init_roots w).mem w.stack in_args out_args
  have early : ∀ (o : Outcome), (∀ s, o = Outcome.returned s → s = -1) →
      Except.error (stop o frame0 w) = (Except.error r : Except Run Frame) →
      ∃ (ds : List Diag) (p : Nat),
        r.trace = pushes r.julia_args.length ++ (ds.map Event.diag ++ pops p) ∧
        (∀ s, r.outcome = Outcome.returned s → p = r.julia_args.length ∧ s = -1) := by
    intro o ho h
    simp only [Except.error.injEq] at h
    subst h
    exact ⟨[], 0, by simp [stop, frame0, pushes, pops],
      fun s hs => ⟨by simp [stop, frame0], ho s hs⟩⟩
  unfold marshal_args at hm
  by_cases h1 : impl_info_.base.dh ≠ E.OIF_LANG_JULIA
  · rw [if_pos h1] at hm
    simp only [Except.error.injEq] at hm
    subst hm
    exact ⟨[Diag.not_julia prefix_], 0, by simp [stop, Frame.print, frame0, pushes, pops],
      by simp [stop, Frame.print, frame0]⟩
  rw [if_neg h1] at hm
  by_cases h2 : ¬ in_args.num_args < INT32_MAX
  · rw [if_pos h2] at hm
    exact early _ (by simp) hm
  rw [if_neg h2] at hm
  by_cases h3 : ¬ out_args.num_args < INT32_MAX
  · rw [if_pos h3] at hm
    exact early _ (by simp) hm
  rw [if_neg h3] at hm
  by_cases h4 : INT32_MAX < in_args.num_args + out_args.num_args
  · rw [if_pos h4] at hm
    exact early _ (by simp) hm
  rw [if_neg h4] at hm
  by_cases h5 : w.alloc_fails = true
  · rw [if_pos h5] at hm
    exact early _ (by simp) hm
  rw [if_neg h5] at hm
  cases hc : marshal E (init_roots w).mem w.stack in_args out_args with
  | fallthrough g => rw [hc] at hm; simp at hm
  | cleanup g =>
    rw [hc] at hm hw
    simp only [Except.error.injEq] at hm
    subst hm
    obtain ⟨g0, d, ⟨h1, h2⟩, rfl⟩ := hw
    exact ⟨[d], g0.julia_args.length,
      by simp [cleanup, Frame.print, h1, h2, pops], by simp [cleanup, Frame.print]⟩
  | undefined g =>
    rw [hc] at hm hw
    simp only [Except.error.injEq] at hm
    subst hm
    exact ⟨[], 0, by simp [stop, hw.2, pops], by simp [stop]⟩

theorem cleanup_shaped (result : Int) (f : Frame) (w : World) (work : List Event)
    (hk : f.num_stacked_args = f.julia_args.length)
    (ht : f.trace = pushes f.julia_args.length ++ work)
    (hw : ∀ e ∈ work, e.isPush = false ∧ e.isPop = false) :
    shaped (cleanup result f w) f.julia_args.length :=
  ⟨work, f.julia_args.length, by simp [cleanup, ht, hk, pops], hw, rfl, fun _ _ => rfl⟩

theorem stop_shaped (o : Outcome) (f : Frame) (w : World) (work : List Event)
    (ht : f.trace = pushes f.julia_args.length ++ work)
    (hw : ∀ e ∈ work, e.isPush = false ∧ e.isPop = false)
    (ho : ∀ s, o ≠ Outcome.returned s) :
    shaped (stop o f w) f.julia_args.length :=
  ⟨work, 0, by simp [stop, ht, pops], hw, rfl, fun s hs => absurd hs (ho s)⟩

theorem invoke_shaped (E : Env) (w : World) (roots : Ptr) (fn : Nat) (f : Frame)
    (work : List Event)
    (hk : f.num_stacked_args = f.julia_args.length)
    (ht : f.trace = pushes f.julia_args.length ++ work)
    (hw : ∀ e ∈ work, e.isPush = false ∧ e.isPop = false) :
    shaped (invoke E w roots fn f) f.julia_args.length := by
  have hw1 : ∀ e ∈ work ++ [Event.call fn f.julia_args],
      e.isPush = false ∧ e.isPop = false := by
    intro e he
    rcases List.mem_append.1 he with h | h
    · exact hw e h
    · simp only [List.mem_singleton] at h
      subst h
      exact ⟨rfl, rfl⟩
  have hd : ∀ (l : List Event) (d : Diag),
      (∀ e ∈ l, e.isPush = false ∧ e.isPop = false) →
      ∀ e ∈ l ++ [Event.diag d], e.isPush = false ∧ e.isPop = false := by
    intro l d hl e he
    rcases List.mem_append.1 he with h | h
    · exact hl e h
    · simp only [List.mem_singleton] at h
      subst h
      exact ⟨rfl, rfl⟩
  unfold invoke
  simp only
  split
  · exact cleanup_shaped _ _ _ (work ++ [Event.call fn f.julia_args]
        ++ [Event.diag (handle_exception_ E (E.jl_call fn f.julia_args w).1).1])
      hk (by simp [Frame.print, ht]) (hd _ _ hw1)
  · split
    · split
      · exact cleanup_shaped _ _ _
          (work ++ [Event.call fn f.julia_args] ++ [Event.diag (Diag.called prefix_)]
            ++ [Event.diag (Diag.roots ((E.jl_call fn f.julia_args w).1.mem roots)
                  ((E.jl_call fn f.julia_args w).1.mem (roots + 8)))])
          hk (by simp [Frame.print, ht]) (hd _ _ (hd _ _ hw1))
      · exact stop_shaped _ _ _ (work ++ [Event.call fn f.julia_args])
          (by simp [ht]) hw1 (by simp)
    · exact stop_shaped _ _ _ (work ++ [Event.call fn f.julia_args])
        (by simp [ht]) hw1 (by simp)

theorem dispatch_shaped (E : Env) (w : World) (roots : Ptr) (impl_info : JuliaImplInfo)
    (method : List Char) (n : Nat) (f : Frame) (hf : f.wf) :
    shaped (dispatch E w roots impl_info method n f) f.julia_args.length := by
  obtain ⟨hk, ht⟩ := hf
  have hl : ∀ name, ∀ e ∈ [Event.get_function impl_info.module name],
      e.isPush = false ∧ e.isPop = false := by
    intro name e he
    simp only [List.mem_singleton] at he
    subst he
    exact ⟨rfl, rfl⟩
  have hld : ∀ name d, ∀ e ∈ [Event.get_function impl_info.module name, Event.diag d],
      e.isPush = false ∧ e.isPop = false := by
    intro name d e he
    simp only [List.mem_cons, List.mem_singleton, List.not_mem_nil, or_false] at he
    rcases he with h | h <;> subst h <;> exact ⟨rfl, rfl⟩
  unfold dispatch
  simp only
  split
  · split
    · exact cleanup_shaped _ _ _
        [Event.get_function impl_info.module method,
          Event.diag (Diag.method_not_found prefix_ method impl_info.base.implh)]
        hk (by simp [Frame.print, ht]) (hld _ _)
    · exact invoke_shaped E w roots _ _ [Event.get_function impl_info.module method]
        hk (by simp [ht]) (hl _)
  · split
    · exact stop_shaped _ _ _ [] (by simp [ht]) (by simp) (by simp)
    · split
      · exact cleanup_shaped _ _ _
          [Event.get_function impl_info.module (method ++ ['!']),
            Event.diag (Diag.method_bang_not_found prefix_ method impl_info.base.implh)]
          hk (by simp [Frame.print, ht]) (hld _ _)
      · exact invoke_shaped E w roots _ _
          [Event.get_function impl_info.module (method ++ ['!'])]
          hk (by simp [ht]) (hl _)

/-- Every execution of `call_impl` has the shape above. -/
theorem call_impl_shaped (E : Env) (w : World) (impl_info_ : JuliaImplInfo)
    (method : List Char) (in_args out_args : OIFArgs) :
    shaped (call_impl E w impl_info_ method in_args out_args)
      (call_impl E w impl_info_ method in_args out_args).julia_args.length := by
  cases hm : marshal_args E w impl_info_ in_args out_args with
  | error r =>
    rw [call_impl_of_stopped E w impl_info_ method in_args out_args r hm]
    obtain ⟨ds, p, ht, hp⟩ := marshal_args_error E w impl_info_ in_args out_args r hm
    refine ⟨ds.map Event.diag, p, ht, ?_, rfl, fun s hs => (hp s hs).1⟩
    intro e he
    obtain ⟨d, _, rfl⟩ := List.mem_map.1 he
    exact ⟨rfl, rfl⟩
  | ok f =>
    rw [call_impl_of_marshaled E w impl_info_ method in_args out_args f hm]
    have hf := (marshal_args_ok E w impl_info_ in_args out_args f hm).1
    have h := dispatch_shaped E (init_roots w) w.stack impl_info_ method out_args.num_args f hf
    obtain ⟨work, p, h1, h2, h3, h4⟩ := h
    rw [h3]
    exact ⟨work, p, h1, h2, h3, h4⟩

theorem filter_pushes (p : Event → Bool) (hp : ∀ i, p (Event.gc_push i) = false) (k : Nat) :
    (pushes k).filter p = [] := by
  simp [pushes, List.filter_eq_nil_iff, hp]

theorem filter_pops (p : Event → Bool) (hp : p Event.gc_pop = false) (k : Nat) :
    (pops k).filter p = [] := by
  simp only [pops, List.filter_eq_nil_iff]
  intro e he
  rw [List.eq_of_mem_replicate he, hp]
  simp

theorem filter_isPush_pushes (k : Nat) : (pushes k).filter Event.isPush = pushes k := by
  simp [pushes, List.filter_eq_self, Event.isPush]

theorem filter_isPop_pops (k : Nat) : (pops k).filter Event.isPop = pops k := by
  simp only [pops, List.filter_eq_self]
  intro e he
  rw [List.eq_of_mem_replicate he]
  rfl

theorem filter_quiet (p : Event → Bool) (work : List Event)
    (h : ∀ e ∈ work, p e = false) : work.filter p = [] := by
  simp only [List.filter_eq_nil_iff]
  intro e he
  rw [h e he]
  simp

theorem invoke_calls (E : Env) (w : World) (roots : Ptr) (fn : Nat) (f : Frame) :
    (invoke E w roots fn f).trace.filter Event.isCall
      = f.trace.filter Event.isCall ++ [Event.call fn f.julia_args] := by
  unfold invoke
  simp only
  split
  · simp [cleanup, Frame.print, List.filter_append, filter_pops, Event.isCall]
  · split
    · split
      · simp [cleanup, Frame.print, List.filter_append, filter_pops, Event.isCall]
      · simp [stop, List.filter_append, Event.isCall]
    · simp [stop, List.filter_append, Event.isCall]

theorem invoke_lookups (E : Env) (w : World) (roots : Ptr) (fn : Nat) (f : Frame) :
    (invoke E w roots fn f).trace.filter Event.isLookup = f.trace.filter Event.isLookup := by
  unfold invoke
  simp only
  split
  · simp [cleanup, Frame.print, List.filter_append, filter_pops, Event.isLookup]
  · split
    · split
      · simp [cleanup, Frame.print, List.filter_append, filter_pops, Event.isLookup]
      · simp [stop, List.filter_append, Event.isLookup]
    · simp [stop, List.filter_append, Event.isLookup]

/-- After an invocation that left an exception pending: the status, the messages,
and the error state. -/
theorem invoke_raised (E : Env) (w : World) (roots : Ptr) (fn : Nat) (f : Frame) (e : Nat)
    (hexc : (E.jl_call fn f.julia_args w).1.exception = some e) :
    (invoke E w roots fn f).outcome = Outcome.returned (-1) ∧
    (invoke E w roots fn f).trace.filter Event.isDiag
      = f.trace.filter Event.isDiag
        ++ [Event.diag (Diag.error prefix_ (E.sprint_showerror (some e)))] ∧
    (invoke E w roots fn f).world.exception = none := by
  simp [invoke, hexc, cleanup, Frame.print, handle_exception_, List.filter_append,
    filter_pops, Event.isDiag]

/-- After an invocation that left no exception pending: the outcome is decided by
the returned value, and no error message is printed. -/
theorem invoke_quiet (E : Env) (w : World) (roots : Ptr) (fn : Nat) (f : Frame)
    (hexc : (E.jl_call fn f.julia_args w).1.exception = none) :
    (∀ v, (E.jl_call fn f.julia_args w).2 = some (JlValue.int64 v) →
      (invoke E w roots fn f).outcome
        = if v = 0 then Outcome.returned 0 else Outcome.assert_failed) ∧
    (∀ msg, Event.diag (Diag.error prefix_ msg) ∈ (invoke E w roots fn f).trace →
      Event.diag (Diag.error prefix_ msg) ∈ f.trace) := by
  constructor
  · intro v hv
    by_cases h0 : v = 0
    · simp [invoke, hexc, hv, h0, cleanup]
    · simp [invoke, hexc, hv, h0, stop]
  · intro msg
    unfold invoke
    simp only [hexc, Option.isSome_none, Bool.false_eq_true, if_false]
    split
    · split
      · simp [cleanup, Frame.print, pops]
      · simp [stop]
    · simp [stop]

/-- An invocation in the trace of `call_impl` comes from line 225: the arguments
were marshaled, the name fitted its buffer, and the lookup found the callee. -/
theorem call_impl_invoked (E : Env) (w : World) (impl_info_ : JuliaImplInfo)
    (method : List Char) (in_args out_args : OIFArgs) (fn : Nat) (args : List JlValue)
    (hcall : Event.call fn args ∈ (call_impl E w impl_info_ method in_args out_args).trace) :
    ∃ f, marshal_args E w impl_info_ in_args out_args = Except.ok f ∧
      f.wf ∧
      (out_args.num_args = 0 ∨ method.length ≤ 62) ∧
      E.jl_get_function impl_info_.module (callable_name method out_args.num_args) = some fn ∧
      args = f.julia_args ∧
      call_impl E w impl_info_ method in_args out_args
        = invoke E (init_roots w) w.stack fn
            (f.lookup impl_info_.module (callable_name method out_args.num_args)) := by
  have hcall2 : Event.call fn args
      ∈ (call_impl E w impl_info_ method in_args out_args).trace.filter Event.isCall :=
    List.mem_filter.2 ⟨hcall, rfl⟩
  cases hm : marshal_args E w impl_info_ in_args out_args with
  | error r =>
    exfalso
    rw [call_impl_of_stopped E w impl_info_ method in_args out_args r hm] at hcall2
    obtain ⟨ds, p, ht, _⟩ := marshal_args_error E w impl_info_ in_args out_args r hm
    rw [ht] at hcall2
    simp [List.filter_append, filter_pushes, filter_pops, Event.isCall,
      List.filter_eq_nil_iff.2] at hcall2
  | ok f =>
    have hwf := (marshal_args_ok E w impl_info_ in_args out_args f hm).1
    have hcalls0 : f.trace.filter Event.isCall = [] := by
      rw [hwf.2]
      exact filter_pushes _ (fun _ => rfl) _
    rw [call_impl_of_marshaled E w impl_info_ method in_args out_args f hm] at hcall2 ⊢
    by_cases hfit : out_args.num_args = 0 ∨ method.length ≤ 62
    · rw [dispatch_eq E (init_roots w) w.stack impl_info_ method out_args.num_args f hfit]
        at hcall2 ⊢
      cases hfn : E.jl_get_function impl_info_.module
          (callable_name method out_args.num_args) with
      | none =>
        exfalso
        rw [hfn] at hcall2
        simp [cleanup, Frame.print, Frame.lookup, List.filter_append, hcalls0, filter_pops,
          Event.isCall] at hcall2
      | some fn2 =>
        rw [hfn] at hcall2
        simp only [invoke_calls, Frame.lookup, List.filter_append, hcalls0, List.nil_append,
          List.filter_cons, Event.isCall, List.filter_nil, List.mem_singleton,
          Bool.false_eq_true, if_false, Event.call.injEq] at hcall2
        obtain ⟨h1, h2⟩ := hcall2
        subst h1
        exact ⟨f, rfl, hwf, hfit, rfl, h2, rfl⟩
    · exfalso
      have hn : ¬ out_args.num_args = 0 := fun h => hfit (Or.inl h)
      have hlen : 64 < strlen method + 2 := by
        have : ¬ method.length ≤ 62 := fun h => hfit (Or.inr h)
        simp only [strlen]; omega
      simp [dispatch, hn, hlen, stop, hcalls0] at hcall2

/-! ## Theorems: garbage-collector bookkeeping -/

/-- C4: on every path on which `call_impl` returns, the number of GC pops equals
the number of GC pushes; the pushes are exactly one push for each marshaled value,
slot by slot; and every pop comes after everything else that the call did, in
particular after the invocation. -/
theorem call_impl_gc_balanced (E : Env) (w : World) (impl_info_ : JuliaImplInfo)
    (method : List Char) (in_args out_args : OIFArgs) (status : Int)
    (hret : (call_impl E w impl_info_ method in_args out_args).outcome
      = Outcome.returned status) :
    ((call_impl E w impl_info_ method in_args out_args).trace.filter Event.isPop).length
      = ((call_impl E w impl_info_ method in_args out_args).trace.filter Event.isPush).length ∧
    (call_impl E w impl_info_ method in_args out_args).trace.filter Event.isPush
      = pushes (call_impl E w impl_info_ method in_args out_args).julia_args.length ∧
    (∃ work : List Event,
      (call_impl E w impl_info_ method in_args out_args).trace
        = pushes (call_impl E w impl_info_ method in_args out_args).julia_args.length
          ++ work
          ++ pops (call_impl E w impl_info_ method in_args out_args).julia_args.length ∧
      ∀ e ∈ work, e.isPush = false ∧ e.isPop = false) ∧
    (∀ (before after : List Event) (fn : Nat) (args : List JlValue),
      (call_impl E w impl_info_ method in_args out_args).trace
        = before ++ Event.call fn args :: after →
      Event.gc_pop ∉ before) := by
  obtain ⟨work, p, ht, hw, _, hp⟩ := call_impl_shaped E w impl_info_ method in_args out_args
  have hpk := hp status hret
  subst hpk
  have hq1 : work.filter Event.isPush = [] := filter_quiet _ _ (fun e he => (hw e he).1)
  have hq2 : work.filter Event.isPop = [] := filter_quiet _ _ (fun e he => (hw e he).2)
  refine ⟨?_, ?_, ⟨work, by rw [ht, List.append_assoc], hw⟩, ?_⟩
  · rw [ht]
    simp only [List.filter_append, hq1, hq2, filter_pushes Event.isPop (fun _ => rfl),
      filter_pops Event.isPush rfl, filter_isPush_pushes, filter_isPop_pops]
    simp [pushes, pops]
  · rw [ht]
    simp only [List.filter_append, hq1, filter_pops Event.isPush rfl, filter_isPush_pushes]
    simp
  · intro before after fn args hsplit hpop
    rw [ht, ← List.append_assoc] at hsplit
    rcases List.append_eq_append_iff.1 hsplit with ⟨a, hbefore, hpops⟩ | ⟨c, hpw, hc⟩
    · have hmem : Event.call fn args
          ∈ pops (call_impl E w impl_info_ method in_args out_args).julia_args.length := by
        rw [hpops]
        simp
      have := List.eq_of_mem_replicate hmem
      simp at this
    · have hin : Event.gc_pop
          ∈ pushes (call_impl E w impl_info_ method in_args out_args).julia_args.length
            ++ work := by
        rw [hpw]
        exact List.mem_append_left _ hpop
      rcases List.mem_append.1 hin with h | h
      · simp [pushes] at h
      · have := (hw _ h).2
        simp [Event.isPop] at this

theorem call_impl_gc_balanced_witness :
    (call_impl (qeq_env id) (qeq_world 0) qeq_handle "solve".toList qeq_in qeq_out).outcome
      = Outcome.returned 0 ∧
    ((call_impl (qeq_env id) (qeq_world 0) qeq_handle "solve".toList qeq_in
        qeq_out).trace.filter Event.isPop).length
      = ((call_impl (qeq_env id) (qeq_world 0) qeq_handle "solve".toList qeq_in
        qeq_out).trace.filter Event.isPush).length ∧
    (call_impl (qeq_env id) (qeq_world 0) qeq_handle "solve".toList qeq_in
        qeq_out).trace.filter Event.isPush
      = pushes (call_impl (qeq_env id) (qeq_world 0) qeq_handle "solve".toList qeq_in
        qeq_out).julia_args.length :=
  have h := call_impl_gc_balanced (qeq_env id) (qeq_world 0) qeq_handle "solve".toList
    qeq_in qeq_out 0 (by decide)
  ⟨by decide, h.1, h.2.1⟩

/-! ## Theorems: resolution of the callable -/

/-- C2 (the code does not do this for long names): with one output argument and a
method name of 63 characters the arguments marshal, and the name with its suffix
and terminator needs 65 elements where `non_pure_method` has 64, so `strcat`
stores past the buffer, which is undefined behaviour, before the lookup of line
214.  With no output argument the same name is passed on as it is: exactly that
name is looked up, and `call_impl` returns -1 when it is not found. -/
theorem call_impl_long_name_overruns_buffer :
    ((marshal_args (qeq_env id) (qeq_world 0) qeq_handle no_args qeq_out).toOption.map
        (fun f => f.julia_args)
      = some [JlValue.array_f64 9000 [2] false]) ∧
    64 < strlen (List.replicate 63 'a') + 2 ∧
    (call_impl (qeq_env id) (qeq_world 0) qeq_handle (List.replicate 63 'a') no_args
        qeq_out).outcome
      = Outcome.undefined ∧
    (call_impl (qeq_env id) (qeq_world 0) qeq_handle (List.replicate 63 'a') qeq_in
        no_args).trace.filter Event.isLookup
      = [Event.get_function (some qeq_module) (List.replicate 63 'a')] ∧
    (call_impl (qeq_env id) (qeq_world 0) qeq_handle (List.replicate 63 'a') qeq_in
        no_args).outcome
      = Outcome.returned (-1) := by
  decide

/-- What the code satisfies of the resolution contract: for every argument lists
that marshal successfully and every method name whose suffixed form fits
`non_pure_method` (at most 62 characters when there are output arguments),
`call_impl` looks up exactly one name in the module of the handle: `method`
itself when the output count is 0, and `method` followed by `!` otherwise; when
that lookup fails it returns -1 without another lookup and without an invocation. -/
theorem call_impl_resolves_one_name (E : Env) (w : World) (impl_info_ : JuliaImplInfo)
    (method : List Char) (in_args out_args : OIFArgs) (f : Frame)
    (hm : marshal_args E w impl_info_ in_args out_args = Except.ok f)
    (hfit : out_args.num_args = 0 ∨ method.length ≤ 62) :
    (call_impl E w impl_info_ method in_args out_args).trace.filter Event.isLookup
      = [Event.get_function impl_info_.module
          (if out_args.num_args = 0 then method else method ++ ['!'])] ∧
    (E.jl_get_function impl_info_.module
        (if out_args.num_args = 0 then method else method ++ ['!']) = none →
      (call_impl E w impl_info_ method in_args out_args).outcome = Outcome.returned (-1) ∧
      (call_impl E w impl_info_ method in_args out_args).trace.filter Event.isCall = []) := by
  have hwf := (marshal_args_ok E w impl_info_ in_args out_args f hm).1
  have hl0 : f.trace.filter Event.isLookup = [] := by
    rw [hwf.2]
    exact filter_pushes _ (fun _ => rfl) _
  have hc0 : f.trace.filter Event.isCall = [] := by
    rw [hwf.2]
    exact filter_pushes _ (fun _ => rfl) _
  rw [call_impl_of_marshaled E w impl_info_ method in_args out_args f hm,
    dispatch_eq E (init_roots w) w.stack impl_info_ method out_args.num_args f hfit]
  have hname : callable_name method out_args.num_args
      = if out_args.num_args = 0 then method else method ++ ['!'] := rfl
  rw [← hname]
  cases hfn : E.jl_get_function impl_info_.module (callable_name method out_args.num_args) with
  | none =>
    simp [cleanup, Frame.print, Frame.lookup, List.filter_append, hl0, hc0, filter_pops,
      Event.isLookup, Event.isCall]
  | some fn =>
    simp [invoke_lookups, Frame.lookup, List.filter_append, hl0, Event.isLookup]

theorem call_impl_resolves_one_name_witness :
    marshal_args (qeq_env id) (qeq_world 0) qeq_handle qeq_in qeq_out
      = Except.ok
          { julia_args := [JlValue.float64 F64_1, JlValue.float64 F64_m3,
              JlValue.float64 F64_2, JlValue.array_f64 9000 [2] false],
            num_stacked_args := 4,
            trace := pushes 4 } ∧
    "absent".toList.length ≤ 62 ∧
    (qeq_env id).jl_get_function qeq_handle.module
        (if qeq_out.num_args = 0 then "absent".toList else "absent".toList ++ ['!']) = none ∧
    (call_impl (qeq_env id) (qeq_world 0) qeq_handle "absent".toList qeq_in
        qeq_out).trace.filter Event.isLookup
      = [Event.get_function qeq_handle.module
          (if qeq_out.num_args = 0 then "absent".toList else "absent".toList ++ ['!'])] ∧
    (call_impl (qeq_env id) (qeq_world 0) qeq_handle "absent".toList qeq_in
        qeq_out).outcome = Outcome.returned (-1) ∧
    (call_impl (qeq_env id) (qeq_world 0) qeq_handle "absent".toList qeq_in
        qeq_out).trace.filter Event.isCall = [] :=
  have h := call_impl_resolves_one_name (qeq_env id) (qeq_world 0) qeq_handle
    "absent".toList qeq_in qeq_out
    { julia_args := [JlValue.float64 F64_1, JlValue.float64 F64_m3, JlValue.float64 F64_2,
        JlValue.array_f64 9000 [2] false],
      num_stacked_args := 4,
      trace := pushes 4 }
    (by rfl) (Or.inr (by decide))
  ⟨by rfl, by decide, by decide, h.1, (h.2 (by decide)).1, (h.2 (by decide)).2⟩

/-! ## Theorems: exceptions and the result of the callee -/

/-- C8: when the callee that `call_impl` invoked leaves an exception pending,
`call_impl` returns -1, prints exactly one message, which is the description of
that exception prefixed with the name of the backend, and returns with the error
state of the runtime cleared; a following call whose callee leaves the error state
as it found it prints no error message, and returns 0 when its callee returned 0. -/
theorem call_impl_callee_exception (E : Env) (w : World) (impl_info_ : JuliaImplInfo)
    (method : List Char) (in_args out_args : OIFArgs) (fn : Nat) (args : List JlValue)
    (e : Nat)
    (hcall : Event.call fn args ∈ (call_impl E w impl_info_ method in_args out_args).trace)
    (hexc : (E.jl_call fn args (init_roots w)).1.exception = some e) :
    (call_impl E w impl_info_ method in_args out_args).outcome = Outcome.returned (-1) ∧
    (call_impl E w impl_info_ method in_args out_args).trace.filter Event.isDiag
      = [Event.diag (Diag.error prefix_ (E.sprint_showerror (some e)))] ∧
    (call_impl E w impl_info_ method in_args out_args).world.exception = none ∧
    (∀ (impl_info2 : JuliaImplInfo) (method2 : List Char) (in_args2 out_args2 : OIFArgs)
        (fn2 : Nat) (args2 : List JlValue),
      Event.call fn2 args2
        ∈ (call_impl E (call_impl E w impl_info_ method in_args out_args).world impl_info2
            method2 in_args2 out_args2).trace →
      (E.jl_call fn2 args2
          (init_roots (call_impl E w impl_info_ method in_args out_args).world)).1.exception
        = (init_roots (call_impl E w impl_info_ method in_args out_args).world).exception →
      (∀ msg, Event.diag (Diag.error prefix_ msg)
        ∉ (call_impl E (call_impl E w impl_info_ method in_args out_args).world impl_info2
            method2 in_args2 out_args2).trace) ∧
      ((E.jl_call fn2 args2
          (init_roots (call_impl E w impl_info_ method in_args out_args).world)).2
          = some (JlValue.int64 0) →
        (call_impl E (call_impl E w impl_info_ method in_args out_args).world impl_info2
            method2 in_args2 out_args2).outcome = Outcome.returned 0)) := by
  obtain ⟨f, _, hwf, _, _, hargs, hrun⟩ :=
    call_impl_invoked E w impl_info_ method in_args out_args fn args hcall
  subst hargs
  have hexc1 : (E.jl_call fn
      (f.lookup impl_info_.module (callable_name method out_args.num_args)).julia_args
      (init_roots w)).1.exception = some e := hexc
  obtain ⟨h1, h2, h3⟩ := invoke_raised E (init_roots w) w.stack fn _ e hexc1
  rw [← hrun] at h1 h2 h3
  refine ⟨h1, ?_, h3, ?_⟩
  · rw [h2]
    simp [Frame.lookup, List.filter_append, hwf.2, filter_pushes, Event.isDiag]
  · intro impl_info2 method2 in_args2 out_args2 fn2 args2 hcall2 hq
    obtain ⟨f2, _, hwf2, _, _, hargs2, hrun2⟩ :=
      call_impl_invoked E _ impl_info2 method2 in_args2 out_args2 fn2 args2 hcall2
    subst hargs2
    have hnone : (init_roots
        (call_impl E w impl_info_ method in_args out_args).world).exception = none := h3
    rw [hnone] at hq
    obtain ⟨hv, hmsg⟩ := invoke_quiet E
      (init_roots (call_impl E w impl_info_ method in_args out_args).world)
      (call_impl E w impl_info_ method in_args out_args).world.stack fn2
      (f2.lookup impl_info2.module (callable_name method2 out_args2.num_args)) hq
    rw [← hrun2] at hv hmsg
    constructor
    · intro msg hin
      have := hmsg msg hin
      simp [Frame.lookup, hwf2.2, pushes] at this
    · intro h0
      have := hv 0 h0
      simpa using this

theorem call_impl_callee_exception_witness :
    Event.call 2 [JlValue.float64 F64_1, JlValue.float64 F64_m3, JlValue.float64 F64_2,
        JlValue.array_f64 9000 [2] false]
      ∈ (call_impl (qeq_env id) (qeq_world 0) qeq_handle "raise".toList qeq_in qeq_out).trace ∧
    ((qeq_env id).jl_call 2 [JlValue.float64 F64_1, JlValue.float64 F64_m3,
        JlValue.float64 F64_2, JlValue.array_f64 9000 [2] false]
        (init_roots (qeq_world 0))).1.exception = some 2 ∧
    (call_impl (qeq_env id) (qeq_world 0) qeq_handle "raise".toList qeq_in qeq_out).outcome
      = Outcome.returned (-1) ∧
    (call_impl (qeq_env id) (qeq_world 0) qeq_handle "raise".toList qeq_in
        qeq_out).trace.filter Event.isDiag
      = [Event.diag (Diag.error prefix_ "ErrorException".toList)] ∧
    (call_impl (qeq_env id) (qeq_world 0) qeq_handle "raise".toList qeq_in
        qeq_out).world.exception = none :=
  have h := call_impl_callee_exception (qeq_env id) (qeq_world 0) qeq_handle "raise".toList
    qeq_in qeq_out 2
    [JlValue.float64 F64_1, JlValue.float64 F64_m3, JlValue.float64 F64_2,
      JlValue.array_f64 9000 [2] false] 2 (by decide) (by rfl)
  ⟨by decide, by rfl, h.1, h.2.1, h.2.2.1⟩

/-- C9: `call_impl` returns 0 only if it invoked the callee, the invocation left
no exception pending, and the callee returned the `Int64` 0; and whenever the
callee that it invoked returns, without exception, an `Int64` other than 0,
`call_impl` returns no status at all: the assertion `retval == 0` fails. -/
theorem call_impl_zero_or_assert (E : Env) (w : World) (impl_info_ : JuliaImplInfo)
    (method : List Char) (in_args out_args : OIFArgs) :
    ((call_impl E w impl_info_ method in_args out_args).outcome = Outcome.returned 0 →
      ∃ fn,
        Event.call fn (call_impl E w impl_info_ method in_args out_args).julia_args
          ∈ (call_impl E w impl_info_ method in_args out_args).trace ∧
        (E.jl_call fn (call_impl E w impl_info_ method in_args out_args).julia_args
          (init_roots w)).1.exception = none ∧
        (E.jl_call fn (call_impl E w impl_info_ method in_args out_args).julia_args
          (init_roots w)).2 = some (JlValue.int64 0)) ∧
    (∀ (fn : Nat) (args : List JlValue) (v : Int),
      Event.call fn args ∈ (call_impl E w impl_info_ method in_args out_args).trace →
      (E.jl_call fn args (init_roots w)).1.exception = none →
      (E.jl_call fn args (init_roots w)).2 = some (JlValue.int64 v) →
      v ≠ 0 →
      (call_impl E w impl_info_ method in_args out_args).outcome = Outcome.assert_failed) := by
  constructor
  · intro hret
    cases hm : marshal_args E w impl_info_ in_args out_args with
    | error r =>
      exfalso
      rw [call_impl_of_stopped E w impl_info_ method in_args out_args r hm] at hret
      obtain ⟨_, _, _, hp⟩ := marshal_args_error E w impl_info_ in_args out_args r hm
      have := (hp 0 hret).2
      simp at this
    | ok f =>
      rw [call_impl_of_marshaled E w impl_info_ method in_args out_args f hm] at hret ⊢
      by_cases hfit : out_args.num_args = 0 ∨ method.length ≤ 62
      · rw [dispatch_eq E (init_roots w) w.stack impl_info_ method out_args.num_args f hfit]
          at hret ⊢
        cases hfn : E.jl_get_function impl_info_.module
            (callable_name method out_args.num_args) with
        | none =>
          rw [hfn] at hret
          simp [cleanup] at hret
        | some fn =>
          rw [hfn] at hret
          simp only at hret ⊢
          refine ⟨fn, ?_⟩
          unfold invoke at hret ⊢
          simp only [Frame.lookup] at hret ⊢
          split at hret
          · simp [cleanup] at hret
          · next hexc =>
            split at hret
            · next retval hv =>
              split at hret
              · next h0 =>
                subst h0
                have hexc2 : (E.jl_call fn f.julia_args (init_roots w)).1.exception = none := by
                  simpa using hexc
                simp [hexc2, hv, cleanup, Frame.print]
              · simp [stop] at hret
            · simp [stop] at hret
      · exfalso
        have hn : ¬ out_args.num_args = 0 := fun h => hfit (Or.inl h)
        have hlen : 64 < strlen method + 2 := by
          have : ¬ method.length ≤ 62 := fun h => hfit (Or.inr h)
          simp only [strlen]; omega
        simp [dispatch, hn, hlen, stop] at hret
  · intro fn args v hcall hexc hv hne
    obtain ⟨f, _, _, _, _, hargs, hrun⟩ :=
      call_impl_invoked E w impl_info_ method in_args out_args fn args hcall
    subst hargs
    have h := (invoke_quiet E (init_roots w) w.stack fn
      (f.lookup impl_info_.module (callable_name method out_args.num_args)) hexc).1 v hv
    rw [← hrun, if_neg hne] at h
    exact h

theorem call_impl_zero_or_assert_witness :
    Event.call 3 [JlValue.float64 F64_1, JlValue.float64 F64_m3, JlValue.float64 F64_2,
        JlValue.array_f64 9000 [2] false]
      ∈ (call_impl (qeq_env id) (qeq_world 0) qeq_handle "five".toList qeq_in qeq_out).trace ∧
    ((qeq_env id).jl_call 3 [JlValue.float64 F64_1, JlValue.float64 F64_m3,
        JlValue.float64 F64_2, JlValue.array_f64 9000 [2] false]
        (init_roots (qeq_world 0))).2 = some (JlValue.int64 5) ∧
    (call_impl (qeq_env id) (qeq_world 0) qeq_handle "five".toList qeq_in qeq_out).outcome
      = Outcome.assert_failed ∧
    (call_impl (qeq_env id) (qeq_world 0) qeq_handle "solve".toList qeq_in qeq_out).outcome
      = Outcome.returned 0 ∧
    (∃ fn,
      Event.call fn (call_impl (qeq_env id) (qeq_world 0) qeq_handle "solve".toList qeq_in
          qeq_out).julia_args
        ∈ (call_impl (qeq_env id) (qeq_world 0) qeq_handle "solve".toList qeq_in
          qeq_out).trace ∧
      ((qeq_env id).jl_call fn (call_impl (qeq_env id) (qeq_world 0) qeq_handle
          "solve".toList qeq_in qeq_out).julia_args (init_roots (qeq_world 0))).1.exception
        = none ∧
      ((qeq_env id).jl_call fn (call_impl (qeq_env id) (qeq_world 0) qeq_handle
          "solve".toList qeq_in qeq_out).julia_args (init_roots (qeq_world 0))).2
        = some (JlValue.int64 0)) :=
  ⟨by decide, by rfl,
    (call_impl_zero_or_assert (qeq_env id) (qeq_world 0) qeq_handle "five".toList qeq_in
      qeq_out).2 3
      [JlValue.float64 F64_1, JlValue.float64 F64_m3, JlValue.float64 F64_2,
        JlValue.array_f64 9000 [2] false]
      5 (by decide) (by rfl) (by rfl) (by decide),
    by decide,
    (call_impl_zero_or_assert (qeq_env id) (qeq_world 0) qeq_handle "solve".toList qeq_in
      qeq_out).1 (by decide)⟩

/-! ## Theorems: what the marshaling loops get right -/

theorem in_loop_values (E : Env) (mem : Ptr → Nat) (roots : Ptr) (in_args : OIFArgs) :
    ∀ (remaining : Nat) (f g : Frame),
      in_loop E mem roots in_args remaining f.julia_args.length f = Ctl.fallthrough g →
      (∃ tail, g.julia_args = f.julia_args ++ tail) ∧
      ∀ k, f.julia_args.length ≤ k → k < f.julia_args.length + remaining →
        in_args.arg_types[k]? = some E.OIF_FLOAT64 →
        ∃ p, in_args.arg_values[k]? = some p ∧
          g.julia_args[k]? = some (JlValue.float64 (mem p)) := by
  intro remaining
  induction remaining with
  | zero =>
    intro f g h
    simp only [in_loop, Ctl.fallthrough.injEq] at h
    subst h
    exact ⟨⟨[], by simp⟩, fun k h1 h2 => by omega⟩
  | succ n ih =>
    intro f g h
    have hstep : ∀ v,
        in_loop E mem roots in_args n (f.julia_args.length + 1)
          (f.stack f.julia_args.length v) = Ctl.fallthrough g →
        (∃ tail, g.julia_args = f.julia_args ++ tail) ∧
        (g.julia_args[f.julia_args.length]? = some v) ∧
        ∀ k, f.julia_args.length + 1 ≤ k → k < f.julia_args.length + (n + 1) →
          in_args.arg_types[k]? = some E.OIF_FLOAT64 →
          ∃ p, in_args.arg_values[k]? = some p ∧
            g.julia_args[k]? = some (JlValue.float64 (mem p)) := by
      intro v hv
      have hlen : (f.stack f.julia_args.length v).julia_args.length
          = f.julia_args.length + 1 := by simp [Frame.stack]
      rw [← hlen] at hv
      obtain ⟨⟨tail, ht⟩, hk⟩ := ih _ g hv
      simp only [Frame.stack, List.append_assoc, List.singleton_append] at ht
      refine ⟨⟨v :: tail, ht⟩, ?_, ?_⟩
      · rw [ht, List.getElem?_append_right (le_refl _)]
        simp
      · intro k h1 h2 h3
        exact hk k (by rw [hlen]; exact h1) (by rw [hlen]; omega) h3
    unfold in_loop at h
    split at h
    · simp at h
    · next t ht =>
      split at h
      · next heq =>
        split at h
        · simp at h
        · next p hp =>
          obtain ⟨h1, h2, h3⟩ := hstep _ h
          refine ⟨h1, ?_⟩
          intro k hk1 hk2 hk3
          by_cases hk : k = f.julia_args.length
          · subst hk
            exact ⟨p, hp, h2⟩
          · exact h3 k (by omega) hk2 hk3
      · next hne =>
        split at h
        · obtain ⟨h1, _, h3⟩ := hstep _ h
          refine ⟨h1, ?_⟩
          intro k hk1 hk2 hk3
          by_cases hk : k = f.julia_args.length
          · subst hk
            rw [ht] at hk3
            simp only [Option.some.injEq] at hk3
            exact absurd hk3 hne
          · exact h3 k (by omega) hk2 hk3
        · simp at h

theorem out_loop_keeps (E : Env) (mem : Ptr → Nat) (roots : Ptr) (in_args out_args : OIFArgs)
    (in_num_args : Nat) :
    ∀ (remaining i : Nat) (f g : Frame),
      out_loop E mem roots in_args out_args in_num_args remaining i f = Ctl.fallthrough g →
      ∃ tail, g.julia_args = f.julia_args ++ tail := by
  intro remaining
  induction remaining with
  | zero =>
    intro i f g h
    simp only [out_loop, Ctl.fallthrough.injEq] at h
    subst h
    exact ⟨[], by simp⟩
  | succ n ih =>
    intro i f g h
    have hstep : ∀ v,
        out_loop E mem roots in_args out_args in_num_args n (i + 1) (f.stack i v)
          = Ctl.fallthrough g →
        ∃ tail, g.julia_args = f.julia_args ++ tail := by
      intro v hv
      obtain ⟨tail, ht⟩ := ih _ _ g hv
      exact ⟨v :: tail, by simpa [Frame.stack] using ht⟩
    unfold out_loop at h
    split at h
    · simp at h
    · split at h
      · split at h
        · simp at h
        · exact hstep _ h
      · split at h
        · exact hstep _ h
        · split at h <;> simp at h

/-- What the code satisfies of the marshaling contract: the callee is invoked
once, with exactly `n + m` values, and every position `k < n` whose input tag is
that of a `double` holds the 64-bit pattern stored at the address of input
argument `k`. -/
theorem call_impl_invokes_with_all_args (E : Env) (w : World) (impl_info_ : JuliaImplInfo)
    (method : List Char) (in_args out_args : OIFArgs) (fn : Nat) (args : List JlValue)
    (hcall : Event.call fn args ∈ (call_impl E w impl_info_ method in_args out_args).trace) :
    (call_impl E w impl_info_ method in_args out_args).trace.filter Event.isCall
      = [Event.call fn args] ∧
    args.length = in_args.num_args + out_args.num_args ∧
    ∀ k, k < in_args.num_args → in_args.arg_types[k]? = some E.OIF_FLOAT64 →
      ∃ p, in_args.arg_values[k]? = some p ∧
        args[k]? = some (JlValue.float64 ((init_roots w).mem p)) := by
  obtain ⟨f, hm, hwf, _, _, hargs, hrun⟩ :=
    call_impl_invoked E w impl_info_ method in_args out_args fn args hcall
  subst hargs
  obtain ⟨_, hlen, hmar⟩ := marshal_args_ok E w impl_info_ in_args out_args f hm
  refine ⟨?_, hlen, ?_⟩
  · rw [hrun, invoke_calls]
    simp [Frame.lookup, List.filter_append, hwf.2, filter_pushes, Event.isCall]
  · intro k hk ht
    unfold marshal at hmar
    split at hmar
    · next g hg =>
      have hin := in_loop_values E (init_roots w).mem w.stack in_args in_args.num_args
        frame0 g hg
      obtain ⟨_, hvals⟩ := hin
      obtain ⟨p, hp, hv⟩ := hvals k (by simp [frame0]) (by simpa [frame0] using hk) ht
      obtain ⟨tail, htail⟩ := out_loop_keeps E (init_roots w).mem w.stack in_args out_args
        in_args.num_args out_args.num_args in_args.num_args g f hmar
      refine ⟨p, hp, ?_⟩
      have hklt : k < g.julia_args.length := by
        by_contra hge
        rw [List.getElem?_eq_none (by omega)] at hv
        simp at hv
      rw [htail, List.getElem?_append_left hklt]
      exact hv
    · next c hc =>
      exfalso
      exact hc f hmar

theorem in_loop_stops (E : Env) (mem : Ptr → Nat) (roots : Ptr) (in_args : OIFArgs)
    (i : Nat) (t : Int)
    (ht : in_args.arg_types[i]? = some t)
    (hbad : t ≠ E.OIF_FLOAT64 ∧ t ≠ E.OIF_ARRAY_F64)
    (hbefore : ∀ k < i, ∃ tk pk, in_args.arg_types[k]? = some tk ∧
      (tk = E.OIF_FLOAT64 ∨ tk = E.OIF_ARRAY_F64) ∧ in_args.arg_values[k]? = some pk) :
    ∀ (j remaining : Nat) (f : Frame), f.wf → f.julia_args.length + j = i → j < remaining →
      ∃ g : Frame, g.wf ∧ g.julia_args.length = i ∧
        in_loop E mem roots in_args remaining f.julia_args.length f
          = Ctl.cleanup (g.print (Diag.cannot_convert_input prefix_ i t)) := by
  intro j
  induction j with
  | zero =>
    intro remaining f hf hi hrem
    obtain ⟨n, rfl⟩ : ∃ n, remaining = n + 1 := ⟨remaining - 1, by omega⟩
    simp only [Nat.add_zero] at hi
    refine ⟨f, hf, hi, ?_⟩
    unfold in_loop
    simp [hi, ht, hbad.1, hbad.2]
  | succ j ih =>
    intro remaining f hf hi hrem
    obtain ⟨n, rfl⟩ : ∃ n, remaining = n + 1 := ⟨remaining - 1, by omega⟩
    obtain ⟨tk, pk, h1, h2, h3⟩ := hbefore f.julia_args.length (by omega)
    have hstep : ∀ v, ∃ g : Frame, g.wf ∧ g.julia_args.length = i ∧
        in_loop E mem roots in_args n (f.julia_args.length + 1)
            (f.stack f.julia_args.length v)
          = Ctl.cleanup (g.print (Diag.cannot_convert_input prefix_ i t)) := by
      intro v
      have hlen : (f.stack f.julia_args.length v).julia_args.length
          = f.julia_args.length + 1 := by simp [Frame.stack]
      have := ih n (f.stack f.julia_args.length v) (f.wf_stack v hf)
        (by rw [hlen]; omega) (by omega)
      rw [hlen] at this
      exact this
    unfold in_loop
    simp only [h1, h3]
    by_cases hf64 : tk = E.OIF_FLOAT64
    · rw [if_pos hf64]
      exact hstep _
    · have harr : tk = E.OIF_ARRAY_F64 := by
        rcases h2 with h | h
        · exact absurd h hf64
        · exact h
      rw [if_neg hf64, if_pos harr]
      exact hstep _

/-- What the code satisfies of the marshaling-error contract, for the input
list: when the first input argument with an unsupported type tag is at index `i`,
`call_impl` stops there, prints the message that names `i` and that tag, makes no
lookup and no invocation, pops the `i` values pushed so far and returns -1. -/
theorem call_impl_input_tag_unsupported (E : Env) (w : World) (impl_info_ : JuliaImplInfo)
    (method : List Char) (in_args out_args : OIFArgs) (i : Nat) (t : Int)
    (hdh : impl_info_.base.dh = E.OIF_LANG_JULIA)
    (hin : in_args.num_args < INT32_MAX) (hout : out_args.num_args < INT32_MAX)
    (hsum : in_args.num_args + out_args.num_args ≤ INT32_MAX)
    (halloc : w.alloc_fails = false)
    (hi : i < in_args.num_args)
    (ht : in_args.arg_types[i]? = some t)
    (hbad : t ≠ E.OIF_FLOAT64 ∧ t ≠ E.OIF_ARRAY_F64)
    (hbefore : ∀ k < i, ∃ tk pk, in_args.arg_types[k]? = some tk ∧
      (tk = E.OIF_FLOAT64 ∨ tk = E.OIF_ARRAY_F64) ∧ in_args.arg_values[k]? = some pk) :
    (call_impl E w impl_info_ method in_args out_args).outcome = Outcome.returned (-1) ∧
    (call_impl E w impl_info_ method in_args out_args).trace
      = pushes i ++ [Event.diag (Diag.cannot_convert_input prefix_ i t)] ++ pops i := by
  obtain ⟨g, hg, hlen, hloop⟩ := in_loop_stops E (init_roots w).mem w.stack in_args i t ht
    hbad hbefore i in_args.num_args frame0 ⟨rfl, rfl⟩ (by simp [frame0]) hi
  simp only [frame0, List.length_nil] at hloop
  have hmar : marshal E (init_roots w).mem w.stack in_args out_args
      = Ctl.cleanup (g.print (Diag.cannot_convert_input prefix_ i t)) := by
    simp only [marshal, frame0, hloop]
  have hargs : marshal_args E w impl_info_ in_args out_args
      = Except.error (cleanup (-1) (g.print (Diag.cannot_convert_input prefix_ i t))
          (init_roots w)) := by
    have h4 : ¬ INT32_MAX < in_args.num_args + out_args.num_args := by omega
    simp [marshal_args, hdh, hin, hout, h4, halloc, hmar]
  rw [call_impl_of_stopped E w impl_info_ method in_args out_args _ hargs]
  simp [cleanup, Frame.print, hg.1, hg.2, hlen, pops]

theorem call_impl_input_tag_unsupported_witness :
    (call_impl (qeq_env id) (qeq_world 0) qeq_handle "solve".toList
        { num_args := 2, arg_types := [3, 99], arg_values := [1000, 1008] } qeq_out).outcome
      = Outcome.returned (-1) ∧
    (call_impl (qeq_env id) (qeq_world 0) qeq_handle "solve".toList
        { num_args := 2, arg_types := [3, 99], arg_values := [1000, 1008] } qeq_out).trace
      = pushes 1 ++ [Event.diag (Diag.cannot_convert_input prefix_ 1 99)] ++ pops 1 :=
  call_impl_input_tag_unsupported (qeq_env id) (qeq_world 0) qeq_handle "solve".toList
    { num_args := 2, arg_types := [3, 99], arg_values := [1000, 1008] } qeq_out 1 99
    (by decide) (by decide) (by decide) (by decide) (by rfl) (by decide) (by rfl)
    (by decide)
    (fun k hk => ⟨3, 1000, by
      have : k = 0 := by omega
      subst this
      exact ⟨rfl, Or.inl rfl, rfl⟩⟩)

/-- What the code satisfies of the fault contract of `load_impl`: when the
include of the file, or the import of the module, leaves an exception pending,
`load_impl` reports it through `handle_exception_`, makes no further evaluation,
and returns a null handle with the error state cleared. -/
theorem load_impl_fault_reported (E : Env) (w : World) (uninit : ImplInfo)
    (impl_details : List Char) (version_major version_minor : Nat)
    (module_filename module_name : List Char)
    (hparse : parse_descriptor impl_details = some (module_filename, module_name))
    (hstr : NUL ∈ module_filename ∧ NUL ∈ module_name) :
    (∀ e, (E.jl_eval_string (include_statement (cstr module_filename)) w).1.exception
        = some e →
      (load_impl E w uninit impl_details version_major version_minor).result = some none ∧
      (load_impl E w uninit impl_details version_major version_minor).trace.getLast?
        = some (LoadEvent.diag (Diag.error prefix_ (E.sprint_showerror (some e)))) ∧
      LoadEvent.eval_string (import_statement (cstr module_name))
        ∉ (load_impl E w uninit impl_details version_major version_minor).trace ∧
      (load_impl E w uninit impl_details version_major version_minor).world.exception
        = none) ∧
    (∀ e, (E.jl_eval_string (include_statement (cstr module_filename)) w).1.exception
        = none →
      (E.jl_eval_string (import_statement (cstr module_name))
        (E.jl_eval_string (include_statement (cstr module_filename)) w).1).1.exception
        = some e →
      (load_impl E w uninit impl_details version_major version_minor).result = some none ∧
      (load_impl E w uninit impl_details version_major version_minor).trace.getLast?
        = some (LoadEvent.diag (Diag.error prefix_ (E.sprint_showerror (some e)))) ∧
      (load_impl E w uninit impl_details version_major version_minor).world.exception
        = none) := by
  have hinc : include_statement (cstr module_filename)
      ≠ import_statement (cstr module_name) := by
    simp [include_statement, import_statement]
  constructor
  · intro e he
    simp [load_impl, hparse, hstr, he, handle_exception_, hinc.symm]
  · intro e h1 h2
    simp [load_impl, hparse, hstr, h1, h2, handle_exception_]

theorem call_impl_invokes_with_all_args_witness :
    Event.call 1 [JlValue.float64 F64_1, JlValue.float64 F64_m3, JlValue.float64 F64_2,
        JlValue.array_f64 9000 [2] false]
      ∈ (call_impl (qeq_env id) (qeq_world 0) qeq_handle "solve".toList qeq_in qeq_out).trace ∧
    [JlValue.float64 F64_1, JlValue.float64 F64_m3, JlValue.float64 F64_2,
        JlValue.array_f64 9000 [2] false].length = qeq_in.num_args + qeq_out.num_args :=
  ⟨by decide,
    (call_impl_invokes_with_all_args (qeq_env id) (qeq_world 0) qeq_handle "solve".toList
      qeq_in qeq_out 1
      [JlValue.float64 F64_1, JlValue.float64 F64_m3, JlValue.float64 F64_2,
        JlValue.array_f64 9000 [2] false] (by decide)).2.1⟩

set_option maxRecDepth 100000 in
theorem load_impl_fault_reported_witness :
    parse_descriptor "other.jl Other".toList
      = some ("other.jl".toList ++ List.replicate 504 NUL,
              "Other".toList ++ List.replicate 507 NUL) ∧
    (load_impl broken_env (qeq_world 0) { dh := 0, implh := 0 } "other.jl Other".toList 1
        0).result = some none ∧
    (load_impl broken_env (qeq_world 0) { dh := 0, implh := 0 } "other.jl Other".toList 1
        0).world.exception = none :=
  have h := (load_impl_fault_reported broken_env (qeq_world 0) { dh := 0, implh := 0 }
    "other.jl Other".toList 1 0
    ("other.jl".toList ++ List.replicate 504 NUL) ("Other".toList ++ List.replicate 507 NUL)
    (by decide) (by decide)).1 1 (by decide)
  ⟨by decide, h.1, h.2.2.2⟩

/-! ## Where the code departs from its specification -/

/-- C1 (the code does not do this): in the end-to-end example the array handed to
`solve!` for the output argument is a view over the local array `roots` (at 9000),
not over the caller's buffer (at 2000); the roots that the callee writes land in
`roots`, and when `call_impl` returns 0 the caller's buffer is unchanged. -/
theorem call_impl_output_array_is_scratch :
    (call_impl (qeq_env id) (qeq_world 0) qeq_handle "solve".toList qeq_in qeq_out).outcome
      = Outcome.returned 0 ∧
    qeq_out.arg_values = [2000] ∧
    (call_impl (qeq_env id) (qeq_world 0) qeq_handle "solve".toList qeq_in
        qeq_out).trace.filter Event.isCall
      = [Event.call 1 [JlValue.float64 F64_1, JlValue.float64 F64_m3, JlValue.float64 F64_2,
          JlValue.array_f64 9000 [2] false]] ∧
    (call_impl (qeq_env id) (qeq_world 0) qeq_handle "solve".toList qeq_in
        qeq_out).world.mem 9000 = F64_2 ∧
    (call_impl (qeq_env id) (qeq_world 0) qeq_handle "solve".toList qeq_in
        qeq_out).world.mem 9008 = F64_1 ∧
    (call_impl (qeq_env id) (qeq_world 0) qeq_handle "solve".toList qeq_in
        qeq_out).world.mem 2000 = 0 ∧
    (call_impl (qeq_env id) (qeq_world 0) qeq_handle "solve".toList qeq_in
        qeq_out).world.mem 2008 = 0 := by
  decide

/-- C5 (the code does not do this for the output list): with one supported input
and an output argument of tag 99 at index 0 of the output list, the message is
built from `i = 1` and from `in_args->arg_types[1]`.  When the arrays of `in_args`
end after their one argument this read is outside the array and no message
naming index 0 and tag 99 is printed; when they have a spare element holding 5,
the message names index 1 and tag 5. -/
theorem call_impl_output_diag_reads_in_args :
    (call_impl (qeq_env id) (qeq_world 0) qeq_handle "solve".toList one_in bad_out).outcome
      = Outcome.undefined ∧
    (call_impl (qeq_env id) (qeq_world 0) qeq_handle "solve".toList one_in bad_out).trace
      = [Event.gc_push 0] ∧
    (call_impl (qeq_env id) (qeq_world 0) qeq_handle "solve".toList one_in_spare
        bad_out).outcome = Outcome.returned (-1) ∧
    (call_impl (qeq_env id) (qeq_world 0) qeq_handle "solve".toList one_in_spare
        bad_out).trace
      = [Event.gc_push 0, Event.diag (Diag.cannot_convert_output prefix_ 1 5),
          Event.gc_pop] := by
  decide

/-- C7 (the code does not do this for output scalars): the value boxed for an
output `double` is read through `in_args->arg_values[i]` as a `float`.  When the
arrays of `in_args` end after the inputs, that read is outside the array and the
callee is not invoked.  When they have a spare element, the callee is invoked with
a value computed from the cell that the spare element addresses (here -3.0 at
1008), whatever the output argument's own cell at 2000 holds: for every conversion
of `float` to `double` there is a content `b` of that cell from which the boxed
value differs. -/
theorem call_impl_output_scalar_reads_in_args (load_float : Nat → Nat) :
    (call_impl (qeq_env load_float) (qeq_world 0) qeq_handle "noop".toList one_in
        scalar_out).outcome = Outcome.undefined ∧
    (call_impl (qeq_env load_float) (qeq_world 0) qeq_handle "noop".toList one_in
        scalar_out).trace = [Event.gc_push 0] ∧
    ∃ b : Nat,
      (qeq_world b).mem 2000 = b ∧
      (call_impl (qeq_env load_float) (qeq_world b) qeq_handle "noop".toList one_in_spare
          scalar_out).outcome = Outcome.returned 0 ∧
      (call_impl (qeq_env load_float) (qeq_world b) qeq_handle "noop".toList one_in_spare
          scalar_out).trace.filter Event.isCall
        = [Event.call 4 [JlValue.float64 F64_1, JlValue.float64 (load_float F64_m3)]] ∧
      load_float F64_m3 ≠ b := by
  refine ⟨rfl, rfl, (if load_float F64_m3 = 0 then 1 else 0), rfl, rfl, rfl, ?_⟩
  by_cases h : load_float F64_m3 = 0
  · simp [h]
  · simp [h]

set_option maxRecDepth 100000 in
/-- C6 (the code does not do this for the third step): with a descriptor whose
file and import load while the name `QeqSolver` is not defined, the third
evaluation raises, and `load_impl` still returns a handle that is not null, with
a null module, without having called `handle_exception_`, and with the exception
still pending. -/
theorem load_impl_third_fault_unreported :
    (load_impl other_env (qeq_world 0) { dh := 0, implh := 0 } "other.jl Other".toList 1
        0).result
      = some (some { base := { dh := 0, implh := 0 }, module_name := "Other".toList,
                     module := none }) ∧
    (load_impl other_env (qeq_world 0) { dh := 0, implh := 0 } "other.jl Other".toList 1
        0).trace
      = [LoadEvent.jl_init,
          LoadEvent.log_filename prefix_ "other.jl".toList,
          LoadEvent.log_name prefix_ "Other".toList,
          LoadEvent.log_executing (include_statement "other.jl".toList),
          LoadEvent.eval_string (include_statement "other.jl".toList),
          LoadEvent.static_show (some (JlValue.other 0)),
          LoadEvent.eval_string (import_statement "Other".toList),
          LoadEvent.static_show (some (JlValue.other 0)),
          LoadEvent.eval_string "QeqSolver".toList] ∧
    (load_impl other_env (qeq_world 0) { dh := 0, implh := 0 } "other.jl Other".toList 1
        0).world.exception = some 3 := by
  decide

end DispatchJulia
